import Mathlib

/-!
# Verification of the mandala memoization engine core

A shallow embedding of the storage orchestrator, context lifecycle, batch
executor and provenance functor of the `mandala` / `mandala_lite` repository
(`mandala_lite/ui/main.py`, `mandala_lite/ui/funcs.py`,
`mandala_lite/ui/context.py`, `mandala_lite/storages/remote_storage.py`,
`mandala/ui/reffunctors.py`), together with proofs and refutations of the
specification's claims about them.

Components whose source is not part of the repository snapshot (the hasher,
the in-memory KV cache, the relational adapter, the value/call model helpers)
are modelled from the specification; each such definition is marked
`Modelled from the spec`.
-/

set_option maxRecDepth 10000
set_option linter.unusedVariables false

namespace Mandala

/-! ## Hashing (Modelled from the spec: Hasher, §4.A and §6)

The spec promises a deterministic content hash over a canonical
serialization, with collisions cryptographically negligible.  We therefore
model a hash value as its own canonical form: an inductive tree of the
canonical encodings.  Equal canonical encodings give equal hashes, and the
negligible-collision assumption becomes actual injectivity (constructors of
an inductive type are injective). -/

/-- Canonical serialization trees; a UID is such a tree.
Lists are encoded as right-nested cons cells so that `DecidableEq` derives. -/
inductive HVal where
  | hstr (s : String)
  | hnat (n : Nat)
  | hnil
  | hcons (head tail : HVal)
  | hpair (a b : HVal)
deriving DecidableEq, Repr, Inhabited

/-- UIDs are canonical hash values. -/
abbrev UID := HVal

/-- Encode a list of canonical values. -/
def listH : List HVal → HVal
  | [] => HVal.hnil
  | x :: xs => HVal.hcons x (listH xs)

/-- Insert a key/value pair into a key-sorted association list. -/
def insertKV (p : String × HVal) : List (String × HVal) → List (String × HVal)
  | [] => [p]
  | q :: rest => if p.1 ≤ q.1 then p :: q :: rest else q :: insertKV p rest

/-- Sort an association list by key (insertion sort); the canonical
ordered-key encoding of a mapping required by the spec. -/
def sortKVs : List (String × HVal) → List (String × HVal)
  | [] => []
  | p :: rest => insertKV p (sortKVs rest)

/-- Encode a string-keyed mapping canonically: sorted keys, then a list of
key/value pairs. -/
def mapH (kvs : List (String × HVal)) : HVal :=
  listH ((sortKVs kvs).map (fun p => HVal.hpair (HVal.hstr p.1) p.2))

/-- Modelled from the spec: user payloads are opaque; we model them by
natural numbers. -/
abbrev Obj := Nat

/-- Modelled from the spec: content hash of a raw user object. -/
def hashObj (o : Obj) : UID := HVal.hnat o

/-- Modelled from the spec (§6, normative): the call UID is
`H(canonical([sorted_map(internal_name -> uid), versioned_internal_name]))`. -/
def hashCallUid (m : List (String × UID)) (versionedName : String) : UID :=
  listH [mapH m, HVal.hstr versionedName]

/-- Modelled from the spec (§6, normative): the output value UID is
`H(canonical([content_uid, call_uid, output_index]))`. -/
def hashOutputUid (contentUid callUid : UID) (i : Nat) : UID :=
  listH [contentUid, callUid, HVal.hnat i]

/-! ## Value model (Modelled from the spec: §3, §4.B)

`ValueRef` carries a UID, an optional payload and an in-memory flag.  The
payload slot mirrors the Python attribute, which can hold a user object,
`None` (a detached reference) or the `Delayed` sentinel used during batched
execution. -/

/-- The payload slot of a `ValueRef`: a user object, Python `None`
(detached), or the `Delayed` sentinel. -/
inductive PyObj where
  | pnone
  | pdelayed
  | pval (o : Obj)
deriving DecidableEq, Repr, Inhabited

/-- Modelled from the spec (§3): a value reference. -/
structure ValueRef where
  uid : UID
  obj : PyObj
  in_memory : Bool
deriving DecidableEq, Repr, Inhabited

/-- An argument to a call: either a raw user object or an existing
`ValueRef` (the Python `Union[Any, ValueRef]`). -/
inductive WrapInput where
  | raw (o : Obj)
  | ref (r : ValueRef)
deriving DecidableEq, Repr

/-- Modelled from the spec (§4.B): `wrap` returns an existing reference
unchanged and wraps a raw object with its content hash as UID. -/
def wrap : WrapInput → ValueRef
  | .raw o => ⟨hashObj o, .pval o, true⟩
  | .ref r => r

/-- `wrap_inputs` maps `wrap` over the named inputs. -/
def wrap_inputs (xs : List (String × WrapInput)) : List (String × ValueRef) :=
  xs.map (fun p => (p.1, wrap p.2))

/-- Modelled from the spec (§4.B): wrap the outputs of a call, binding the
causal chain (call uid and output position) into each output UID. -/
def wrap_outputs (objs : List Obj) (call_uid : UID) : List ValueRef :=
  objs.enum.map (fun p => ⟨hashOutputUid (hashObj p.2) call_uid p.1, .pval p.2, true⟩)

/-- Modelled from the spec (§3, §9): the `Delayed` variant carries no
payload and exists only during batched execution. -/
def ValueRef.make_delayed : ValueRef := ⟨HVal.hstr "", .pdelayed, false⟩

/-- Source `ValueRef.is_delayed`: the payload slot holds the `Delayed`
sentinel. -/
def ValueRef.is_delayed (v : ValueRef) : Bool := v.obj = .pdelayed

/-- Detach a reference: UID only, payload dropped (used by the relational
adapter's lazy call loading). -/
def ValueRef.detached (v : ValueRef) : ValueRef := ⟨v.uid, .pnone, false⟩

/-! ## Signatures, FuncOps and Calls (Modelled from the spec: §3) -/

/-- Modelled from the spec (§3): the persisted identity of a memoized
function.  Only the fields the claims depend on are carried. -/
structure Sig where
  ui_to_internal_input_map : List (String × String)
  new_input_defaults_uids : List (String × UID)
  versioned_internal_name : String
  versioned_ui_name : String
  n_outputs : Nat
deriving DecidableEq, Repr, Inhabited

/-- Modelled from the spec (§3): a memoized function.  `func` is the user
function on raw payload slots, as invoked by `FuncOp.compute`. -/
structure FuncOp where
  sig : Sig
  func : List (String × PyObj) → List Obj
deriving Inhabited

/-- Modelled from the spec (§3): a call record, immutable once created. -/
structure Call where
  uid : UID
  inputs : List (String × ValueRef)
  outputs : List ValueRef
  func_op : FuncOp
deriving Inhabited

/-- Detach all references of a call (the relational adapter's lazy view). -/
def Call.detached (c : Call) : Call :=
  ⟨c.uid, c.inputs.map (fun p => (p.1, p.2.detached)), c.outputs.map (·.detached), c.func_op⟩

/-! ## Association-list primitives -/

/-- Lookup in an association list by key. -/
def alookup {κ α : Type} [DecidableEq κ] (k : κ) : List (κ × α) → Option α
  | [] => none
  | p :: rest => if p.1 = k then some p.2 else alookup k rest

/-- Insert-or-overwrite in an association list; an existing binding is
replaced in place, otherwise the pair is appended. -/
def aset {κ α : Type} [DecidableEq κ] (k : κ) (v : α) : List (κ × α) → List (κ × α)
  | [] => [(k, v)]
  | p :: rest => if p.1 = k then (k, v) :: rest else p :: aset k v rest

theorem alookup_aset_self {κ α : Type} [DecidableEq κ] (k : κ) (v : α)
    (l : List (κ × α)) : alookup k (aset k v l) = some v := by
  induction l with
  | nil => simp [aset, alookup]
  | cons p rest ih =>
    by_cases h : p.1 = k
    · simp [aset, h, alookup]
    · simp [aset, h, alookup, ih]

/-- Effectful comprehension over `Option` (the Python loops and
comprehensions that raise on a missing element). -/
def omapM {α β : Type} (f : α → Option β) : List α → Option (List β)
  | [] => some []
  | a :: rest => do
    let b ← f a
    let tail ← omapM f rest
    pure (b :: tail)

theorem alookup_aset_ne {κ α : Type} [DecidableEq κ] (k k' : κ) (v : α)
    (l : List (κ × α)) (h : k ≠ k') : alookup k' (aset k v l) = alookup k' l := by
  induction l with
  | nil => simp [aset, alookup, h]
  | cons p rest ih =>
    by_cases hp : p.1 = k
    · subst hp
      simp [aset, alookup, h]
    · simp [aset, hp, alookup, ih]

/-! ## KV cache (Modelled from the spec: §4.D)

An in-memory mapping with a dirty-entry set: `set` inserts or overwrites
and marks the key dirty; `is_clean` holds iff the dirty set is empty. -/

/-- Modelled from the spec (§4.D): an in-memory KV store with dirty
tracking. -/
structure KVStore (α : Type) where
  data : List (UID × α)
  dirty_entries : List UID
deriving Inhabited

/-- The empty store. -/
def KVStore.empty {α : Type} : KVStore α := ⟨[], []⟩

/-- Key membership. -/
def KVStore.exists? {α : Type} (s : KVStore α) (k : UID) : Bool :=
  (alookup k s.data).isSome

/-- Lookup. -/
def KVStore.get {α : Type} (s : KVStore α) (k : UID) : Option α :=
  alookup k s.data

/-- Modelled from the spec (§4.D): insert/overwrite and mark dirty. -/
def KVStore.set {α : Type} (s : KVStore α) (k : UID) (v : α) : KVStore α :=
  ⟨aset k v s.data, if k ∈ s.dirty_entries then s.dirty_entries else k :: s.dirty_entries⟩

/-- Modelled from the spec (§4.D): `is_clean` iff no dirty entries. -/
def KVStore.is_clean {α : Type} (s : KVStore α) : Bool :=
  s.dirty_entries.isEmpty

/-! ## Relational adapter (Modelled from the spec: §4.F, §6)

Owns the value table, the call rows, the provenance rows and the event
log.  `upsert_calls` also writes provenance rows and event-log rows, in
that order, within the adapter transaction; `obj_sets` writes value rows.
All adapter operations are each a single transaction when invoked without
an ambient connection (§4.E). -/

/-- Modelled from the spec (§3 P): a provenance row. -/
structure ProvRow where
  call_uid : UID
  value_uid : UID
  is_input : Bool
  name : String
deriving DecidableEq, Repr

/-- Modelled from the spec (§3 E): an event-log row referencing a row of
another table by UID. -/
structure EventRow where
  table : String
  uid : UID
deriving DecidableEq, Repr

/-- Modelled from the spec (§4.F): the relational store owned by the
adapter. -/
structure RelAdapter where
  objs : List (UID × ValueRef)
  calls : List (UID × Call)
  provenance : List ProvRow
  event_log : List EventRow
deriving Inhabited

/-- The empty relational store. -/
def RelAdapter.empty : RelAdapter := ⟨[], [], [], []⟩

/-- Adapter `call_exists`. -/
def RelAdapter.call_exists (ra : RelAdapter) (u : UID) : Bool :=
  (alookup u ra.calls).isSome

/-- Adapter `call_get_lazy`: the stored call with detached references. -/
def RelAdapter.call_get_lazy (ra : RelAdapter) (u : UID) : Option Call :=
  (alookup u ra.calls).map Call.detached

/-- Adapter `obj_get`. -/
def RelAdapter.obj_get (ra : RelAdapter) (u : UID) : Option ValueRef :=
  alookup u ra.objs

/-- Adapter `obj_gets`: the found rows among the requested keys. -/
def RelAdapter.obj_gets (ra : RelAdapter) (us : List UID) : List (UID × ValueRef) :=
  us.filterMap (fun u => (alookup u ra.objs).map (fun v => (u, v)))

/-- Adapter `obj_sets`: upsert a batch of value rows. -/
def RelAdapter.obj_sets (ra : RelAdapter) (objs : List (UID × ValueRef)) : RelAdapter :=
  { ra with objs := objs.foldl (fun acc p => aset p.1 p.2 acc) ra.objs }

/-- The provenance rows of one call: inputs by name, outputs by index. -/
def provRowsOf (c : Call) : List ProvRow :=
  c.inputs.map (fun p => ⟨c.uid, p.2.uid, true, p.1⟩)
    ++ c.outputs.enum.map (fun p => ⟨c.uid, p.2.uid, false, toString p.1⟩)

/-- Adapter `upsert_calls`: upsert call rows, then append their provenance
rows, then append event-log rows for the new call rows (§4.F: provenance
and event log are written by the same adapter operation). -/
def RelAdapter.upsert_calls (ra : RelAdapter) (cs : List Call) : RelAdapter :=
  { ra with
    calls := cs.foldl (fun acc c => aset c.uid c acc) ra.calls
    provenance := ra.provenance ++ cs.flatMap provRowsOf
    event_log := ra.event_log ++ cs.map (fun c => ⟨c.func_op.sig.versioned_ui_name, c.uid⟩) }

/-- Adapter `get_event_log`. -/
def RelAdapter.get_event_log (ra : RelAdapter) : List EventRow := ra.event_log

/-- Adapter `clear_event_log`. -/
def RelAdapter.clear_event_log (ra : RelAdapter) : RelAdapter :=
  { ra with event_log := [] }

/-! ## Configuration (spec §6)

`autounwrap_inputs` is modelled at its default (true): the call-identity
computation, which the claims are about, does not depend on it. -/

/-- The configuration flags the embedded operations read (spec §6). -/
structure Config where
  autocommit : Bool
  evict_on_commit : Bool
deriving DecidableEq, Repr

/-! ## Remote log (source `storages/remote_storage.py`, spec §4.H)

The remote accepts event-log entries and serves entries since a timestamp.
The bundled tables of `bundle_to_remote` are abstracted to the list of
referenced event rows: serialization and the renaming to internal names do
not affect any claim.  Failures of the bundling step and of the network
send are injected through explicit flags, standing for the exceptions the
Python code may raise there. -/

/-- A bundled event-log entry, abstracted to its event rows. -/
abbrev RemoteEventLogEntry := List EventRow

/-- Errors of the remote-sync path. -/
inductive SyncErr where
  | bundleFailed
  | sendFailed
deriving DecidableEq, Repr

/-- A remote server: whether sends succeed, the received entries, and the
latest server timestamp. -/
structure Remote where
  sendOk : Bool
  log : List RemoteEventLogEntry
  latest_ts : Nat
deriving Inhabited

/-- Source `RemoteStorage.save_event_log_entry`: deliver one entry, or fail. -/
def Remote.save_event_log_entry (r : Remote) (e : RemoteEventLogEntry) :
    Except SyncErr Remote :=
  if r.sendOk then .ok { r with log := r.log ++ [e] } else .error .sendFailed

/-! ## Storage orchestrator (source `mandala_lite/ui/main.py`, class `Storage`) -/

/-- Source `Storage`: in-memory caches, relational adapter, optional
remote root, last sync timestamp. -/
structure Storage where
  call_cache : KVStore Call
  obj_cache : KVStore ValueRef
  rel : RelAdapter
  root : Option Remote
  last_timestamp : Nat
deriving Inhabited

/-- A fresh storage over an optional remote root (source `Storage.__init__`). -/
def Storage.fresh (root : Option Remote) : Storage :=
  ⟨KVStore.empty, KVStore.empty, RelAdapter.empty, root, 0⟩

/-- Source `Storage.call_exists`. -/
def Storage.call_exists (s : Storage) (u : UID) : Bool :=
  s.call_cache.exists? u || s.rel.call_exists u

/-- Source `Storage.obj_get`: the cache wins, else the adapter. -/
def Storage.obj_get (s : Storage) (u : UID) : Option ValueRef :=
  if s.obj_cache.exists? u then s.obj_cache.get u else s.rel.obj_get u

/-- Source `Storage.call_get`: from the cache, or lazily from the adapter
with input and output values loaded through `obj_get`.  `none` models the
exception thrown when a referenced row is absent. -/
def Storage.call_get (s : Storage) (u : UID) : Option Call :=
  if s.call_cache.exists? u then s.call_cache.get u
  else do
    let lazy ← s.rel.call_get_lazy u
    let inputs ← omapM (fun p => (s.obj_get p.2.uid).map (fun v => (p.1, v))) lazy.inputs
    let outputs ← omapM (fun v => s.obj_get v.uid) lazy.outputs
    pure ⟨lazy.uid, inputs, outputs, lazy.func_op⟩

/-- Source `Storage.call_set`. -/
def Storage.call_set (s : Storage) (u : UID) (c : Call) : Storage :=
  { s with call_cache := s.call_cache.set u c }

/-- Source `Storage.obj_set`. -/
def Storage.obj_set (s : Storage) (u : UID) (v : ValueRef) : Storage :=
  { s with obj_cache := s.obj_cache.set u v }

/-- Source `Storage.preload_objs`: load the keys missing from the object
cache out of the relational store into the cache. -/
def Storage.preload_objs (s : Storage) (keys : List UID) : Storage :=
  let missing := keys.filter (fun k => ¬ s.obj_cache.exists? k)
  { s with obj_cache := (s.rel.obj_gets missing).foldl (fun c p => c.set p.1 p.2) s.obj_cache }

/-- Source `Storage.evict_caches`: delete every cached key (the dirty sets
are untouched by deletion; `commit` clears them afterwards). -/
def Storage.evict_caches (s : Storage) : Storage :=
  { s with call_cache := { s.call_cache with data := [] },
           obj_cache := { s.obj_cache with data := [] } }

/-- The value references a call mentions: its inputs then its outputs
(source `itertools.chain(call.inputs.values(), call.outputs)`). -/
def callRefVals (c : Call) : List ValueRef :=
  c.inputs.map (·.2) ++ c.outputs

/-- The UIDs a call references. -/
def callRefUids (c : Call) : List UID :=
  (callRefVals c).map (·.uid)

/-- Source `Storage.commit`, gathering phase: with no explicit list, the
dirty cache entries; with an explicit call list, those calls and a map of
every value they reference. -/
def commitGather (s : Storage) (mcalls : Option (List Call)) :
    List (UID × ValueRef) × List Call :=
  match mcalls with
  | none =>
    (s.obj_cache.dirty_entries.filterMap (fun k => (s.obj_cache.get k).map (fun v => (k, v))),
     s.call_cache.dirty_entries.filterMap (fun k => s.call_cache.get k))
  | some calls =>
    (calls.foldl
      (fun acc c => (callRefVals c).foldl (fun a v => aset v.uid v a) acc)
      [],
     calls)

/-- Source `Storage.commit`: write gathered objects then calls to the
relational store, optionally evict the caches, then clear both dirty sets. -/
def Storage.commit (cfg : Config) (s : Storage) (mcalls : Option (List Call)) : Storage :=
  let g := commitGather s mcalls
  let rel2 := (s.rel.obj_sets g.1).upsert_calls g.2
  let s1 := { s with rel := rel2 }
  let s2 := if cfg.evict_on_commit then s1.evict_caches else s1
  { s2 with call_cache := { s2.call_cache with dirty_entries := [] },
            obj_cache := { s2.obj_cache with dirty_entries := [] } }

/-! ### Transaction trace of `commit`

`Storage.commit` issues two adapter operations, `obj_sets` and
`upsert_calls`; `commit` itself carries no transaction decorator, so each
adapter operation runs in its own transaction (spec §4.E scoping).  The
trace records the written blocks grouped by transaction, and the states of
the relational store observable at transaction boundaries. -/

/-- The kinds of write blocks a commit issues. -/
inductive WKind where
  | wobjs
  | wcalls
  | wprov
  | wevent
deriving DecidableEq, Repr

/-- One written block: its kind and the row UIDs it writes. -/
structure WBlock where
  kind : WKind
  uids : List UID
deriving DecidableEq, Repr

/-- A transaction is the list of blocks it writes, in order. -/
abbrev Txn := List WBlock

/-- The transactions a `commit` issues, in order: the `obj_sets`
transaction, then the `upsert_calls` transaction (calls, then provenance,
then event log). -/
def Storage.commitTrace (s : Storage) (mcalls : Option (List Call)) : List Txn :=
  let g := commitGather s mcalls
  [[⟨.wobjs, g.1.map (·.1)⟩],
   [⟨.wcalls, g.2.map (·.uid)⟩,
    ⟨.wprov, (g.2.flatMap provRowsOf).map (·.value_uid)⟩,
    ⟨.wevent, g.2.map (·.uid)⟩]]

/-- The relational-store states observable at the transaction boundaries
of a `commit`: before, between the two transactions, and after. -/
def Storage.commitObservableRels (s : Storage) (mcalls : Option (List Call)) :
    List RelAdapter :=
  let g := commitGather s mcalls
  [s.rel, s.rel.obj_sets g.1, (s.rel.obj_sets g.1).upsert_calls g.2]

/-! ### Remote synchronization (source `Storage.sync_to_remote` and
`Storage.sync_from_remote`) -/

/-- Source `Storage.bundle_to_remote`: read-only collection of the
event-log-referenced rows (the commented-out event-log clearing of the
source is likewise absent here).  A failure while reading, joining or
renaming is injected through `bundleOk`. -/
def Storage.bundle_to_remote (bundleOk : Bool) (s : Storage) :
    Except SyncErr RemoteEventLogEntry :=
  if bundleOk then .ok s.rel.get_event_log else .error .bundleFailed

/-- Source `Storage.sync_to_remote`: without a remote root, clear the
local event log; with one, bundle, send, and clear only after the send
succeeded.  The returned pair is the raised exception, if any, and the
storage state after the call (an exception leaves the state as it was,
since nothing is mutated before the raise). -/
def Storage.sync_to_remote (bundleOk : Bool) (s : Storage) :
    Option SyncErr × Storage :=
  match s.root with
  | none => (none, { s with rel := s.rel.clear_event_log })
  | some r =>
    match Storage.bundle_to_remote bundleOk s with
    | .error e => (some e, s)
    | .ok changes =>
      match r.save_event_log_entry changes with
      | .error e => (some e, s)
      | .ok r2 => (none, { s with root := some r2, rel := s.rel.clear_event_log })

/-- Source `Storage.sync_from_remote`: a no-op without a remote root; with
one, signatures and new entries are pulled and the timestamp advances.
Only the occurrence of the call and the timestamp advance are modelled;
the application of pulled entries is outside the settled claims. -/
def Storage.sync_from_remote (s : Storage) : Storage :=
  match s.root with
  | none => s
  | some r => { s with last_timestamp := r.latest_ts }

/-- Source `Storage.is_clean`: no uncommitted calls or objects. -/
def Storage.is_clean (s : Storage) : Bool :=
  s.call_cache.is_clean && s.obj_cache.is_clean

/-! ### `call_run` (source `Storage.call_run`) -/

/-- Source `Storage.call_run`, UID phase: map each wrapped input to its
internal name, skipping inputs whose UID matches the recorded new-input
default for that internal name.  `none` models the `KeyError` on a UI name
absent from the internal-name map. -/
def hashableInputUids (sig : Sig) : List (String × ValueRef) → Option (List (String × UID))
  | [] => some []
  | (k, v) :: rest => do
    let internal_k ← alookup k sig.ui_to_internal_input_map
    let tail ← hashableInputUids sig rest
    match alookup internal_k sig.new_input_defaults_uids with
    | some d => if d = v.uid then pure tail else pure ((internal_k, v.uid) :: tail)
    | none => pure ((internal_k, v.uid) :: tail)

/-- The call UID `call_run` computes for a function and inputs. -/
def callUidOf (f : FuncOp) (x : List (String × WrapInput)) : Option UID :=
  (hashableInputUids f.sig (wrap_inputs x)).map
    (fun m => hashCallUid m f.sig.versioned_internal_name)

/-- The result of a `call_run`: outputs, call, updated storage, and
whether the user function was executed (the spec's observable side
counter, §8). -/
structure CallRunResult where
  outputs : List ValueRef
  call : Call
  storage : Storage
  executed : Bool
deriving Inhabited

/-- Source `Storage.call_run`: wrap the inputs, compute the call UID from
internal names, and either replay the stored call (no user-function
execution) or execute, wrap the outputs with causal UIDs, and cache the
call and every referenced value. -/
def Storage.call_run (s : Storage) (func_op : FuncOp)
    (inputs : List (String × WrapInput)) : Option CallRunResult := do
  let wrapped_inputs := wrap_inputs inputs
  let m ← hashableInputUids func_op.sig wrapped_inputs
  let call_uid := hashCallUid m func_op.sig.versioned_internal_name
  if s.call_exists call_uid then do
    let call ← s.call_get call_uid
    let s2 := s.preload_objs (call.outputs.map (·.uid))
    let wrapped_outputs ← omapM (fun v => s2.obj_get v.uid) call.outputs
    pure ⟨wrapped_outputs, call, s2, false⟩
  else
    let raw_inputs := wrapped_inputs.map (fun p => (p.1, p.2.obj))
    let outputs := func_op.func raw_inputs
    let wrapped_outputs := wrap_outputs outputs call_uid
    let call : Call := ⟨call_uid, wrapped_inputs, wrapped_outputs, func_op⟩
    let s2 := s.call_set call_uid call
    let s3 := (wrapped_outputs ++ wrapped_inputs.map (·.2)).foldl
      (fun st v => st.obj_set v.uid v) s2
    pure ⟨wrapped_outputs, call, s3, true⟩

/-! ### Batched execution (source `Storage.call_batch`,
`SimpleWorkflowExecutor.execute`, `core/workflow.py`) -/

/-- Modelled from the spec (§4.G): a deferred call record produced by
`call_batch`; the workflow groups these by op, which the executor then
flattens, so a workflow is modelled as the flat list of its call structs. -/
structure CallStruct where
  func_op : FuncOp
  inputs : List (String × ValueRef)
  outputs : List ValueRef
deriving Inhabited

/-- Source `Storage.call_batch`: delayed output slots plus the struct. -/
def Storage.call_batch (f : FuncOp) (inputs : List (String × ValueRef)) :
    List ValueRef × CallStruct :=
  let outputs := List.replicate f.sig.n_outputs ValueRef.make_delayed
  (outputs, ⟨f, inputs, outputs⟩)

/-- The Python exceptions the embedded operations can raise. -/
inductive PyErr where
  | attrError
  | keyError
  | assertionError
  | runtimeNoContext
  | runtimeInvalidated
  | syncError (e : SyncErr)
deriving DecidableEq, Repr

/-! ## Workflow executor (source `SimpleWorkflowExecutor.execute`)

The per-struct record keeps, besides the returned `Call`, the value
references `call_run` produced and the struct with its output slots
overwritten in place (the observable effect of the source's three field
assignments). -/

/-- Source `SimpleWorkflowExecutor.execute`, inner loop: each output slot
paired by `zip` is overwritten with the computed UID and payload and
marked in-memory; unpaired trailing slots are untouched. -/
def overwriteOutputs (outs vrefs : List ValueRef) : List ValueRef :=
  (outs.zip vrefs).map (fun p => ⟨p.2.uid, p.2.obj, true⟩) ++ outs.drop vrefs.length

/-- What executing one call struct leaves behind: the struct as given, the
returned call, the value references `call_run` returned, and the struct
with its output slots overwritten. -/
structure ExecRecord where
  src : CallStruct
  call : Call
  vrefOutputs : List ValueRef
  updated : CallStruct
deriving Inhabited

/-- Source `SimpleWorkflowExecutor.execute`, main loop: assert no delayed
inputs, run each struct through `call_run`, overwrite its output slots.
On an exception the records so far and the mutated storage remain. -/
def executeStructs (s : Storage) :
    List CallStruct → Option PyErr × List ExecRecord × Storage
  | [] => (none, [], s)
  | cs :: rest =>
    if cs.inputs.any (fun p => p.2.is_delayed) then (some .assertionError, [], s)
    else
      match s.call_run cs.func_op (cs.inputs.map (fun p => (p.1, WrapInput.ref p.2))) with
      | none => (some .keyError, [], s)
      | some r =>
        match executeStructs r.storage rest with
        | (err, recs, s2) =>
          (err,
           ⟨cs, r.call, r.outputs,
            { cs with outputs := overwriteOutputs cs.outputs r.outputs }⟩ :: recs,
           s2)

/-- Python dict construction `{call.uid: call for call in result}`: keys in
first-insertion order, last value per key wins; `aset` has exactly these
semantics. -/
def firstDedupByUid (cs : List Call) : List Call :=
  (cs.foldl (fun m c => aset c.uid c m) []).map (·.2)

/-- Source `SimpleWorkflowExecutor.execute`: run all structs, then filter
out repeated calls by UID. -/
def SimpleWorkflowExecutor.execute (s : Storage) (w : List CallStruct) :
    Option PyErr × List Call × List ExecRecord × Storage :=
  match executeStructs s w with
  | (err, recs, s2) => (err, firstDedupByUid (recs.map (·.call)), recs, s2)

/-! ## Contexts (source `mandala_lite/ui/main.py`, classes `Context`,
`GlobalContext`, `MODES`)

A Python `Context` holds a *pointer* to its storage (`_backup_state`:
"gotta use a pointer"), and exit actions mutate the pointed-to object, so
the storage field is modelled as a reference into an explicit heap; the
snapshot stack and the restoration then have exactly the source's pointer
semantics.  `GlobalContext.current` is modelled by a boolean link flag. -/

/-- A reference to a storage object. -/
abbrev StorageRef := Nat

/-- The heap of storage objects. -/
abbrev Heap := List (StorageRef × Storage)

/-- Source `MODES`. -/
inductive Mode where
  | run
  | query
  | batch
deriving DecidableEq, Repr

/-- One entry of `_updates_stack`: for each of the three override keys,
whether it was present in `updates` and, if so, the backed-up value. -/
structure Snapshot where
  storage : Option (Option StorageRef)
  mode : Option Mode
  lazy : Option Bool
deriving DecidableEq, Repr

/-- Source `Context`: current field values, the pending `updates` dict
(outer option: key present; inner option: Python `None` value, which is
snapshotted but not applied), the snapshot stack (head = top), and the
call structs collected in batch mode. -/
structure Context where
  storage : Option StorageRef
  mode : Mode
  lazy : Bool
  upd_storage : Option (Option StorageRef)
  upd_mode : Option (Option Mode)
  upd_lazy : Option (Option Bool)
  updates_stack : List Snapshot
  call_structs : List CallStruct

/-- Apply one pending override (source `__enter__`: `if v is not None`). -/
def applyUpd {α : Type} (cur : α) : Option (Option α) → α
  | some (some v) => v
  | _ => cur

/-- Apply the pending storage override: a present, non-`None` value
replaces the pointer. -/
def applyUpdOpt (cur : Option StorageRef) : Option (Option StorageRef) → Option StorageRef
  | some (some v) => some v
  | _ => cur

/-- Source `Context._backup_state` over `updates.keys()`. -/
def Context.backup (c : Context) : Snapshot :=
  ⟨c.upd_storage.map (fun _ => c.storage),
   c.upd_mode.map (fun _ => c.mode),
   c.upd_lazy.map (fun _ => c.lazy)⟩

/-- The result of `Context.__enter__`: the context, the global link flag,
the heap, and whether `sync_from_remote` was invoked. -/
structure EnterResult where
  ctx : Context
  linked : Bool
  heap : Heap
  syncCalled : Bool

/-- Source `Context.__enter__`: link the global context, push the backup
of the update keys, apply the non-`None` updates, and call
`sync_from_remote` whenever a storage is present.  The update-key
validation of the source is vacuous here because the updates are typed. -/
def Context.enter (c : Context) (linked : Bool) (heap : Heap) : EnterResult :=
  let snap := c.backup
  let c2 := { c with
    updates_stack := snap :: c.updates_stack
    storage := applyUpdOpt c.storage c.upd_storage
    mode := applyUpd c.mode c.upd_mode
    lazy := applyUpd c.lazy c.upd_lazy }
  match c2.storage with
  | some p =>
    let heap2 := match alookup p heap with
      | some st => aset p st.sync_from_remote heap
      | none => heap
    ⟨c2, true, heap2, true⟩
  | none => ⟨c2, true, heap, false⟩

/-- Source `Context.__exit__`, try block: the mode-dependent exit actions.
Returns the exception caught into `exc`, if any, and the heap after the
mutations that happened before the raise. -/
def Context.exitAction (cfg : Config) (bundleOk : Bool) (c : Context) (heap : Heap) :
    Option PyErr × Heap :=
  match c.mode with
  | .run =>
    match c.storage with
    | none => (some .attrError, heap)
    | some p =>
      match alookup p heap with
      | none => (some .attrError, heap)
      | some st =>
        let st2 := if cfg.autocommit then st.commit cfg none else st
        match st2.sync_to_remote bundleOk with
        | (some e, st3) => (some (.syncError e), aset p st3 heap)
        | (none, st3) => (none, aset p st3 heap)
  | .query => (none, heap)
  | .batch =>
    match c.storage with
    | none => (some .attrError, heap)
    | some p =>
      match alookup p heap with
      | none => (some .attrError, heap)
      | some st =>
        match SimpleWorkflowExecutor.execute st c.call_structs with
        | (some e, _, _, st2) => (some e, aset p st2 heap)
        | (none, calls, _, st2) => (none, aset p (st2.commit cfg (some calls)) heap)

/-- The result of `Context.__exit__`. -/
structure ExitResult where
  ctx : Context
  linked : Bool
  heap : Heap
  raised : Option PyErr

/-- Source `Context.__exit__`: run the exit actions catching any
exception, then `_undo_updates` (pop the snapshot, restore its keys,
unlink the global context when the stack empties), then re-raise the
caught exception, else re-raise the body's exception. -/
def Context.exit (cfg : Config) (bundleOk : Bool) (c : Context) (linked : Bool)
    (heap : Heap) (bodyExc : Option PyErr) : ExitResult :=
  match c.exitAction cfg bundleOk heap with
  | (exc, heap2) =>
    match c.updates_stack with
    | [] => ⟨c, linked, heap2, some .runtimeNoContext⟩
    | snap :: rest =>
      let c3 := { c with
        storage := snap.storage.getD c.storage
        mode := snap.mode.getD c.mode
        lazy := snap.lazy.getD c.lazy
        updates_stack := rest }
      let linked2 := if rest.isEmpty then false else linked
      ⟨c3, linked2, heap2, match exc with | some e => some e | none => bodyExc⟩

/-! ## FuncInterface (source `mandala_lite/ui/funcs.py`)

Signature synchronization and the per-call signature check are not
modelled: their code (`SigSyncer`, `SigAdapter.is_synced`) is outside the
repository snapshot and no claim depends on them.  `bind_inputs` is
modelled as the already-bound keyword mapping. -/

/-- Source `FuncInterface`. -/
structure FuncInterface where
  func_op : FuncOp
  is_synchronized : Bool
  is_invalidated : Bool

/-- What a `FuncInterface` call produces, by mode. -/
inductive CallOutcome where
  | raw (outs : List Obj)
  | memoized (outs : List ValueRef)
  | queried (n : Nat)
  | batched (outs : List ValueRef)

/-- The result of `FuncInterface.__call__`: the outcome, the (possibly
updated) global context, and the heap. -/
structure FIResult where
  result : CallOutcome
  gctx : Option Context
  heap : Heap

/-- Source `FuncInterface.__call__`: with no active context, invoke the
user function directly on the given arguments; otherwise reject
invalidated interfaces, then dispatch on the context mode. -/
def FuncInterface.callF (cfg : Config) (fi : FuncInterface) (gctx : Option Context)
    (heap : Heap) (args : List (String × Obj)) : Except PyErr FIResult :=
  match gctx with
  | none => .ok ⟨.raw (fi.func_op.func (args.map (fun p => (p.1, PyObj.pval p.2)))), none, heap⟩
  | some ctx =>
    if fi.is_invalidated then .error .runtimeInvalidated
    else
      let inputs := args.map (fun p => (p.1, WrapInput.raw p.2))
      match ctx.mode with
      | .run =>
        match ctx.storage with
        | none => .error .attrError
        | some p =>
          match alookup p heap with
          | none => .error .attrError
          | some st =>
            match st.call_run fi.func_op inputs with
            | none => .error .keyError
            | some r => .ok ⟨.memoized r.outputs, some ctx, aset p r.storage heap⟩
      | .query => .ok ⟨.queried fi.func_op.sig.n_outputs, some ctx, heap⟩
      | .batch =>
        match ctx.storage with
        | none => .error .attrError
        | some _ =>
          match Storage.call_batch fi.func_op (wrap_inputs inputs) with
          | (outs, cstruct) =>
            .ok ⟨.batched outs,
                 some { ctx with call_structs := ctx.call_structs ++ [cstruct] }, heap⟩

/-! ## Provenance functor (source `mandala/ui/reffunctors.py`,
`RefFunctor.back`)

A column is its list of reference UIDs; the creator relation (source
`storage.get_creators`, outside the snapshot) is modelled from the spec as
a map from a reference UID to the versioned UI name of its creator op and
the output name under which it was created ("a value can be output of at
most one call", spec §3).  The embedding covers the column-filtering
portion of `back` (source lines 143-181): a column that survives the
filter is expanded by the subsequent node-construction code. -/

/-- Modelled from the spec (§3, §4.I): creator op and output name per
reference UID. -/
abbrev CreatorMap := List (UID × (String × String))

/-- Source `RefFunctor.back`, per-column checks, in source order:
(a) some reference has no creator; (b) the creator ops span more than one
op; (c) the output names differ across rows.  Returns the failure reason. -/
def backColCheck (prov : CreatorMap) (refs : List UID) : Option String :=
  let creators := refs.map (fun u => alookup u prov)
  if creators.any (·.isNone) then some "no creator"
  else if ((creators.filterMap (fun c => c.map (·.1))).dedup.length > 1) then
    some "multiple ops"
  else if ((creators.filterMap (fun c => c.map (·.2))).dedup.length > 1) then
    some "inconsistent output names"
  else none

/-- Resolve each requested column to its references (the source's
`creator_data` comprehension; a missing column is a `KeyError`). -/
def resolveCols (val_nodes : List (String × List UID)) :
    List String → Option (List (String × List UID))
  | [] => some []
  | c :: rest => do
    let refs ← alookup c val_nodes
    let tail ← resolveCols val_nodes rest
    pure ((c, refs) :: tail)

/-- Source `RefFunctor.back`, filtering loop: a failing column raises its
reason unless `silent_failure`, in which case it is skipped; surviving
columns are collected in order. -/
def backFilterGo (silent_failure : Bool) (prov : CreatorMap) :
    List (String × List UID) → Except String (List String)
  | [] => .ok []
  | (c, refs) :: rest =>
    match backColCheck prov refs with
    | some reason =>
      if silent_failure then backFilterGo silent_failure prov rest
      else .error reason
    | none => (backFilterGo silent_failure prov rest).map (fun l => c :: l)

/-- Source `RefFunctor.back`, restricted to its filtering behaviour: the
list of columns the expansion then processes, or the raised error. -/
def RefFunctor.back (prov : CreatorMap) (val_nodes : List (String × List UID))
    (cols : List String) (silent_failure : Bool) : Except String (List String) :=
  match resolveCols val_nodes cols with
  | none => .error "KeyError"
  | some colRefs => backFilterGo silent_failure prov colRefs

/-! ## Test fixtures

Concrete instances used by witnesses and counterexamples. -/

/-- A one-input signature (UI name `a`, internal name `i_a`). -/
def sigA : Sig := ⟨[("a", "i_a")], [], "f_int@0", "f@0", 1⟩

/-- A one-input, one-output constant test function. -/
def fA : FuncOp := ⟨sigA, fun _ => [7]⟩

/-- A concrete raw argument list for `fA`. -/
def xA : List (String × WrapInput) := [("a", .raw 5)]

/-- A configuration with cache eviction on commit. -/
def cfgEvict : Config := ⟨true, true⟩

/-- A configuration without cache eviction. -/
def cfgKeep : Config := ⟨true, false⟩

/-! ## Claim C9 -/

/-- C9: calling a `FuncInterface` with no active context invokes the
wrapped user function directly on the given arguments and returns its raw
result, touching neither the context nor the heap, and this holds even for
an invalidated interface — whereas with an active context an invalidated
interface always raises. -/
theorem c9_no_context_direct_invocation (cfg : Config) (fi : FuncInterface)
    (heap : Heap) (args : List (String × Obj)) :
    FuncInterface.callF cfg fi none heap args
      = .ok ⟨.raw (fi.func_op.func (args.map (fun p => (p.1, PyObj.pval p.2)))), none, heap⟩
    ∧ FuncInterface.callF cfg { fi with is_invalidated := true } none heap args
        = FuncInterface.callF cfg { fi with is_invalidated := false } none heap args
    ∧ (∀ ctx : Context,
        FuncInterface.callF cfg { fi with is_invalidated := true } (some ctx) heap args
          = .error .runtimeInvalidated) :=
  ⟨rfl, rfl, fun _ => rfl⟩

/-! ## Claim C5 -/

/-- C5: `sync_to_remote` with no remote clears the local event log; with a
remote it bundles, sends, and clears only afterwards, so that a failure in
bundling or sending leaves the storage — in particular its event log —
unchanged. -/
theorem c5_sync_to_remote_clears_only_after_send (bundleOk : Bool) (s : Storage) :
    (s.root = none →
      Storage.sync_to_remote bundleOk s = (none, { s with rel := s.rel.clear_event_log }))
    ∧ (∀ r : Remote, s.root = some r → bundleOk = true → r.sendOk = true →
        Storage.sync_to_remote bundleOk s
          = (none, { s with
              root := some { r with log := r.log ++ [s.rel.get_event_log] },
              rel := s.rel.clear_event_log }))
    ∧ (∀ e, (Storage.sync_to_remote bundleOk s).1 = some e →
        (Storage.sync_to_remote bundleOk s).2 = s) := by
  refine ⟨fun hroot => ?_, fun r hroot hb hs => ?_, fun e herr => ?_⟩
  · simp [Storage.sync_to_remote, hroot]
  · simp [Storage.sync_to_remote, hroot, hb, hs, Storage.bundle_to_remote,
      Remote.save_event_log_entry]
  · rcases hroot : s.root with _ | r
    · simp [Storage.sync_to_remote, hroot] at herr
    · by_cases hb : bundleOk
      · by_cases hs : r.sendOk
        · simp [Storage.sync_to_remote, hroot, hb, hs, Storage.bundle_to_remote,
            Remote.save_event_log_entry] at herr
        · simp [Storage.sync_to_remote, hroot, hb, eq_false_of_ne_true hs,
            Storage.bundle_to_remote, Remote.save_event_log_entry]
      · simp [Storage.sync_to_remote, hroot, eq_false_of_ne_true hb,
          Storage.bundle_to_remote]

/-- A storage whose remote refuses sends, with a nonempty event log. -/
def sFailingRemote : Storage :=
  { Storage.fresh (some ⟨false, [], 0⟩) with
    rel := { RelAdapter.empty with event_log := [⟨"f@0", HVal.hnat 0⟩] } }

/-- Witness for C5 at a concrete storage: the send fails and the state is
returned unchanged, with its event log still nonempty. -/
theorem c5_witness : (Storage.sync_to_remote true sFailingRemote).2 = sFailingRemote :=
  (c5_sync_to_remote_clears_only_after_send true sFailingRemote).2.2
    SyncErr.sendFailed (by decide)

/-! ## Claim C8 -/

theorem resolveCols_map_fst (vn : List (String × List UID)) :
    ∀ cols colRefs, resolveCols vn cols = some colRefs → colRefs.map (·.1) = cols := by
  intro cols
  induction cols with
  | nil =>
    intro colRefs h
    simp only [resolveCols, Option.some.injEq] at h
    subst h; rfl
  | cons c rest ih =>
    intro colRefs h
    simp only [resolveCols, Option.bind_eq_bind, Option.pure_def,
      Option.bind_eq_some, Option.some.injEq] at h
    obtain ⟨refs, _, tail, htail, hcons⟩ := h
    subst hcons
    simp [ih tail htail]

theorem backFilterGo_silent_eq (prov : CreatorMap) :
    ∀ l, backFilterGo true prov l
      = .ok ((l.filter (fun p => (backColCheck prov p.2).isNone)).map (·.1)) := by
  intro l
  induction l with
  | nil => simp [backFilterGo]
  | cons p rest ih =>
    cases hc : backColCheck prov p.2 with
    | none => simp [backFilterGo, hc, ih, Except.map]
    | some reason => simp [backFilterGo, hc, ih]

theorem backFilterGo_strict_ok_iff (prov : CreatorMap) :
    ∀ l, (∃ res, backFilterGo false prov l = .ok res)
      ↔ (∀ p ∈ l, backColCheck prov p.2 = none) := by
  intro l
  induction l with
  | nil => simp [backFilterGo]
  | cons p rest ih =>
    cases hc : backColCheck prov p.2 with
    | none =>
      simp only [backFilterGo, hc]
      constructor
      · intro ⟨res, hres⟩
        cases hgo : backFilterGo false prov rest with
        | error e => rw [hgo] at hres; simp [Except.map] at hres
        | ok l2 =>
          intro q hq
          rcases List.mem_cons.mp hq with hq | hq
          · subst hq; exact hc
          · exact (ih.mp ⟨l2, hgo⟩) q hq
      · intro h
        obtain ⟨res, hres⟩ := ih.mpr (fun q hq => h q (List.mem_cons_of_mem _ hq))
        exact ⟨p.1 :: res, by simp [hres, Except.map]⟩
    | some reason =>
      simp only [backFilterGo, hc]
      constructor
      · intro ⟨res, hres⟩; simp at hres
      · intro h
        have := h p (by simp)
        rw [hc] at this
        simp at this

theorem backFilterGo_strict_all (prov : CreatorMap) :
    ∀ l, (∀ p ∈ l, backColCheck prov p.2 = none) →
      backFilterGo false prov l = .ok (l.map (·.1)) := by
  intro l
  induction l with
  | nil => intro _; simp [backFilterGo]
  | cons p rest ih =>
    intro h
    have hc := h p (by simp)
    have hrest := ih (fun q hq => h q (List.mem_cons_of_mem _ hq))
    simp [backFilterGo, hc, hrest, Except.map]

/-- C8: for every resolvable batch of columns, `back` with
`silent_failure` skips exactly the columns failing one of the creator
checks (no creator, multiple creator ops, inconsistent output names) and
expands the rest; without `silent_failure` it succeeds exactly when every
column passes all checks, in which case every column is expanded. -/
theorem c8_back_silent_vs_strict (prov : CreatorMap) (vn : List (String × List UID))
    (cols : List String) (colRefs : List (String × List UID))
    (hres : resolveCols vn cols = some colRefs) :
    RefFunctor.back prov vn cols true
      = .ok ((colRefs.filter (fun p => (backColCheck prov p.2).isNone)).map (·.1))
    ∧ ((∃ res, RefFunctor.back prov vn cols false = .ok res)
        ↔ ∀ p ∈ colRefs, backColCheck prov p.2 = none)
    ∧ ((∀ p ∈ colRefs, backColCheck prov p.2 = none) →
        RefFunctor.back prov vn cols false = .ok cols) := by
  refine ⟨?_, ?_, ?_⟩
  · simp [RefFunctor.back, hres, backFilterGo_silent_eq]
  · simp [RefFunctor.back, hres, backFilterGo_strict_ok_iff]
  · intro h
    have := backFilterGo_strict_all prov colRefs h
    simp [RefFunctor.back, hres, this, resolveCols_map_fst vn cols colRefs hres]

/-- A creator map: refs 1 and 2 created by `inc@0` as `output_0`; ref 3
has no creator. -/
def provW : CreatorMap :=
  [(HVal.hnat 1, ("inc@0", "output_0")), (HVal.hnat 2, ("inc@0", "output_0"))]

/-- Two columns: `v0` fully created by one op, `v1` with a creatorless ref. -/
def vnW : List (String × List UID) :=
  [("v0", [HVal.hnat 1, HVal.hnat 2]), ("v1", [HVal.hnat 3])]

/-- Witness for C8 at concrete columns: the clean column is expanded by
the strict `back`. -/
theorem c8_witness :
    RefFunctor.back provW vnW ["v0"] false = .ok ["v0"] :=
  (c8_back_silent_vs_strict provW vnW ["v0"]
    [("v0", [HVal.hnat 1, HVal.hnat 2])] (by decide)).2.2 (by decide)

/-! ## Claim C7 -/

/-- A context whose overrides put it in query mode with a storage
attached. -/
def ctxQ : Context :=
  ⟨none, Mode.run, false, some (some 0), some (some Mode.query), none, [], []⟩

/-- A heap holding one fresh storage at reference 0. -/
def heap0 : Heap := [(0, Storage.fresh none)]

/-- C7 counterexample: it is not the case that `sync_from_remote` is
invoked exactly on entering in run mode — entering in query mode with a
storage attached also invokes it. -/
theorem c7_claim_counterexample :
    ¬ (∀ (c : Context) (linked : Bool) (heap : Heap),
        (c.enter linked heap).syncCalled = true
          ↔ (c.enter linked heap).ctx.mode = Mode.run) := by
  intro h
  have hq := (h ctxQ false heap0).mp (by decide)
  revert hq
  decide

/-- C7 (amended): `__enter__` pushes a snapshot of the override keys onto
the updates stack, applies the non-`None` overrides, and calls the
storage's `sync_from_remote` exactly when the entered context has a
storage attached — regardless of the mode. -/
theorem c7_enter_snapshot_and_sync (c : Context) (linked : Bool) (heap : Heap) :
    (c.enter linked heap).ctx.updates_stack = c.backup :: c.updates_stack
    ∧ (c.enter linked heap).ctx.storage = applyUpdOpt c.storage c.upd_storage
    ∧ (c.enter linked heap).ctx.mode = applyUpd c.mode c.upd_mode
    ∧ (c.enter linked heap).ctx.lazy = applyUpd c.lazy c.upd_lazy
    ∧ ((c.enter linked heap).syncCalled = true
        ↔ ((c.enter linked heap).ctx.storage).isSome = true)
    ∧ (∀ p st, (c.enter linked heap).ctx.storage = some p →
        alookup p heap = some st →
        (c.enter linked heap).heap = aset p st.sync_from_remote heap) := by
  cases hs : applyUpdOpt c.storage c.upd_storage with
  | none =>
    refine ⟨?_, ?_, ?_, ?_, ?_, ?_⟩ <;>
      simp [Context.enter, hs]
  | some p =>
    refine ⟨?_, ?_, ?_, ?_, ?_, ?_⟩
    · cases hl : alookup p heap <;> simp [Context.enter, hs, hl]
    · cases hl : alookup p heap <;> simp [Context.enter, hs, hl]
    · cases hl : alookup p heap <;> simp [Context.enter, hs, hl]
    · cases hl : alookup p heap <;> simp [Context.enter, hs, hl]
    · cases hl : alookup p heap <;> simp [Context.enter, hs, hl]
    · intro q st hq hst
      cases hl : alookup p heap with
      | none =>
        simp [Context.enter, hs, hl] at hq
        subst hq
        rw [hl] at hst
        cases hst
      | some st2 =>
        simp [Context.enter, hs, hl] at hq ⊢
        subst hq
        rw [hl] at hst
        cases hst
        rfl

/-- Witness for C7's amended theorem at a concrete context: the snapshot
is pushed and entering in query mode with a storage syncs from the
remote. -/
theorem c7_witness :
    (ctxQ.enter false heap0).ctx.updates_stack = ctxQ.backup :: ctxQ.updates_stack
    ∧ (ctxQ.enter false heap0).heap
        = aset 0 (Storage.fresh none).sync_from_remote heap0 :=
  ⟨(c7_enter_snapshot_and_sync ctxQ false heap0).1,
   (c7_enter_snapshot_and_sync ctxQ false heap0).2.2.2.2.2 0 (Storage.fresh none)
     (by decide) (by simp [heap0, alookup])⟩

/-! ## Claim C6 -/

/-- C6: `__exit__` restores the overridden fields from the popped LIFO
snapshot, pops the stack, unlinks the global context when the stack
empties, keeps the storage mutations the exit actions made before any
failure, and an exception escapes if and only if the body or the exit
actions raised one — so restoration always happens before the re-raise and
no error is dropped silently (when both raised, the exit-action error is
the one propagated). -/
theorem c6_exit_restores_then_reraises (cfg : Config) (bundleOk : Bool) (c : Context)
    (linked : Bool) (heap : Heap) (bodyExc : Option PyErr)
    (snap : Snapshot) (rest : List Snapshot)
    (hstack : c.updates_stack = snap :: rest) :
    (Context.exit cfg bundleOk c linked heap bodyExc).ctx.storage
        = snap.storage.getD c.storage
    ∧ (Context.exit cfg bundleOk c linked heap bodyExc).ctx.mode = snap.mode.getD c.mode
    ∧ (Context.exit cfg bundleOk c linked heap bodyExc).ctx.lazy = snap.lazy.getD c.lazy
    ∧ (Context.exit cfg bundleOk c linked heap bodyExc).ctx.updates_stack = rest
    ∧ (rest = [] → (Context.exit cfg bundleOk c linked heap bodyExc).linked = false)
    ∧ (Context.exit cfg bundleOk c linked heap bodyExc).heap
        = (c.exitAction cfg bundleOk heap).2
    ∧ ((Context.exit cfg bundleOk c linked heap bodyExc).raised = none
        ↔ ((c.exitAction cfg bundleOk heap).1 = none ∧ bodyExc = none)) := by
  cases hact : c.exitAction cfg bundleOk heap with
  | mk exc heap2 =>
    refine ⟨?_, ?_, ?_, ?_, ?_, ?_, ?_⟩
    · simp [Context.exit, hact, hstack]
    · simp [Context.exit, hact, hstack]
    · simp [Context.exit, hact, hstack]
    · simp [Context.exit, hact, hstack]
    · intro hrest; simp [Context.exit, hact, hstack, hrest]
    · simp [Context.exit, hact, hstack]
    · cases exc with
      | none => simp [Context.exit, hact, hstack]
      | some e => simp [Context.exit, hact, hstack]

/-- A context in query mode with one snapshot on its stack. -/
def ctxExit : Context :=
  ⟨some 0, Mode.query, true, none, none, none, [⟨some none, some Mode.run, some false⟩], []⟩

/-- Witness for C6 at a concrete context: the snapshot is restored, the
stack empties, the global context unlinks, and with no exceptions nothing
is raised. -/
theorem c6_witness :
    (Context.exit cfgKeep true ctxExit true [] none).ctx.storage = none
    ∧ (Context.exit cfgKeep true ctxExit true [] none).ctx.mode = Mode.run
    ∧ (Context.exit cfgKeep true ctxExit true [] none).linked = false
    ∧ (Context.exit cfgKeep true ctxExit true [] none).raised = none := by
  have h := c6_exit_restores_then_reraises cfgKeep true ctxExit true [] none
    ⟨some none, some Mode.run, some false⟩ [] rfl
  exact ⟨h.1, h.2.1, h.2.2.2.2.1 rfl, h.2.2.2.2.2.2.mpr ⟨by decide, rfl⟩⟩

/-! ## Claim C2 -/

theorem alookup_mem {κ α : Type} [DecidableEq κ] (k : κ) (l : List (κ × α)) (v : α)
    (h : alookup k l = some v) : (k, v) ∈ l := by
  induction l with
  | nil => simp [alookup] at h
  | cons p rest ih =>
    rw [alookup] at h
    by_cases hp : p.1 = k
    · rw [if_pos hp] at h
      cases h
      obtain ⟨a, b⟩ := p
      cases hp
      exact List.mem_cons_self _ _
    · rw [if_neg hp] at h
      exact List.mem_cons_of_mem _ (ih h)

/-- Every call row of the caches and the relational store sits under its
own UID as key (maintained by `call_set` and `upsert_calls`, which key by
`call.uid`). -/
def CallsWellKeyed (s : Storage) : Prop :=
  (∀ p ∈ s.call_cache.data, p.2.uid = p.1) ∧ (∀ p ∈ s.rel.calls, p.2.uid = p.1)

theorem call_get_uid (s : Storage) (u : UID) (c : Call) (hwk : CallsWellKeyed s)
    (h : s.call_get u = some c) : c.uid = u := by
  by_cases hex : s.call_cache.exists? u
  · simp only [Storage.call_get, hex, if_pos] at h
    exact hwk.1 _ (alookup_mem u _ c h)
  · cases halook : alookup u s.rel.calls with
    | none => simp [Storage.call_get, hex, RelAdapter.call_get_lazy, halook] at h
    | some c0 =>
      simp only [Storage.call_get, hex, Bool.false_eq_true, if_false,
        RelAdapter.call_get_lazy, halook, Option.map_some', Option.bind_eq_bind,
        Option.some_bind, Option.bind_eq_some, Option.pure_def,
        Option.some.injEq] at h
      obtain ⟨inputs, _, outputs, _, hc⟩ := h
      subst hc
      simp only [Call.detached]
      exact hwk.2 (u, c0) (alookup_mem u _ c0 halook)

/-- The spec-side claim: the content UID of a wrapped input (the hash of
its payload when in memory). -/
def specContentUid (v : ValueRef) : UID :=
  match v.obj with
  | .pval o => hashObj o
  | _ => v.uid

/-- The spec-side claim's hashable map: internal input name to *content*
UID (not the reference's own UID), with the same new-default exclusion. -/
def specC2Map (sig : Sig) : List (String × ValueRef) → Option (List (String × UID))
  | [] => some []
  | (k, v) :: rest => do
    let internal_k ← alookup k sig.ui_to_internal_input_map
    let tail ← specC2Map sig rest
    match alookup internal_k sig.new_input_defaults_uids with
    | some d => if d = v.uid then pure tail else pure ((internal_k, specContentUid v) :: tail)
    | none => pure ((internal_k, specContentUid v) :: tail)

/-- The claim's call-UID formula, with content UIDs as map values. -/
def specC2Uid (f : FuncOp) (x : List (String × WrapInput)) : Option UID :=
  (specC2Map f.sig (wrap_inputs x)).map
    (fun m => hashCallUid m f.sig.versioned_internal_name)

/-- An input that is itself the output of another call: its UID is a
causal hash and differs from its content UID. -/
def refCausal : ValueRef :=
  ⟨hashOutputUid (hashObj 3) (hashCallUid [] "g_int@0") 0, .pval 3, true⟩

/-- The causal reference passed as the sole argument. -/
def xCausal : List (String × WrapInput) := [("a", .ref refCausal)]

/-- C2 counterexample: the call UID is *not* in general the hash of the
content-UID map — when an input is the output of another call, `call_run`
hashes its causal UID instead. -/
theorem c2_claim_counterexample :
    ¬ (∀ (s : Storage) (f : FuncOp) (x : List (String × WrapInput)) (r : CallRunResult),
        Storage.call_run s f x = some r → some r.call.uid = specC2Uid f x) := by
  intro h
  have hc := h (Storage.fresh none) fA xCausal
    (((Storage.fresh none).call_run fA xCausal).getD default) rfl
  revert hc
  decide

/-- Rename the UI input names of a signature (the internal data is
untouched; spec §3: UI renames only alter the UI-to-internal map). -/
def Sig.renameUi (ρ : String → String) (sig : Sig) : Sig :=
  { sig with
    ui_to_internal_input_map := sig.ui_to_internal_input_map.map (fun p => (ρ p.1, p.2)) }

/-- Rename the UI input names of a function. -/
def FuncOp.renameUi (ρ : String → String) (f : FuncOp) : FuncOp :=
  ⟨f.sig.renameUi ρ, f.func⟩

/-- Rename the keys of an argument list. -/
def renameArgs (ρ : String → String) (x : List (String × WrapInput)) :
    List (String × WrapInput) :=
  x.map (fun p => (ρ p.1, p.2))

theorem alookup_map_rename {α : Type} (ρ : String → String)
    (hinj : Function.Injective ρ) (l : List (String × α)) (k : String) :
    alookup (ρ k) (l.map (fun p => (ρ p.1, p.2))) = alookup k l := by
  induction l with
  | nil => rfl
  | cons p rest ih =>
    by_cases hp : p.1 = k
    · simp [alookup, hp]
    · have : ¬ ρ p.1 = ρ k := fun hc => hp (hinj hc)
      simp [alookup, hp, this, ih]

theorem hashable_rename (sig : Sig) (ρ : String → String)
    (hinj : Function.Injective ρ) :
    ∀ x : List (String × WrapInput),
      hashableInputUids (sig.renameUi ρ) (wrap_inputs (renameArgs ρ x))
        = hashableInputUids sig (wrap_inputs x) := by
  intro x
  induction x with
  | nil => rfl
  | cons p rest ih =>
    simp only [renameArgs, wrap_inputs, List.map_cons, hashableInputUids] at ih ⊢
    rw [show (Sig.renameUi ρ sig).ui_to_internal_input_map
          = sig.ui_to_internal_input_map.map (fun p => (ρ p.1, p.2)) from rfl,
        alookup_map_rename ρ hinj, ih,
        show (Sig.renameUi ρ sig).new_input_defaults_uids
          = sig.new_input_defaults_uids from rfl]

/-- C2 (amended): the call UID returned by `call_run` is the content hash
of `[m, versioned_internal_name]` where `m` maps each internal input name
to the wrapped input's *own* UID (its content UID for a freshly wrapped
raw value, its causal UID when it is the output of another call),
excluding inputs whose UID matches the recorded new-input default; the UID
is therefore independent of UI names. -/
theorem c2_call_uid_formula (s : Storage) (f : FuncOp) (x : List (String × WrapInput))
    (r : CallRunResult) (hwk : CallsWellKeyed s)
    (hr : Storage.call_run s f x = some r) :
    some r.call.uid = callUidOf f x
    ∧ (∀ ρ : String → String, Function.Injective ρ →
        callUidOf (f.renameUi ρ) (renameArgs ρ x) = callUidOf f x) := by
  constructor
  · simp only [Storage.call_run, Option.bind_eq_bind, Option.bind_eq_some] at hr
    obtain ⟨m, hm, hr⟩ := hr
    by_cases hex : s.call_exists (hashCallUid m f.sig.versioned_internal_name)
    · simp only [hex, if_pos, Option.bind_eq_bind, Option.bind_eq_some] at hr
      obtain ⟨call, hcall, hr⟩ := hr
      obtain ⟨outs, _, hr⟩ := hr
      cases hr
      simp [callUidOf, hm, call_get_uid s _ call hwk hcall]
    · simp only [hex, Bool.false_eq_true, if_neg, not_false_iff,
        Option.some.injEq] at hr
      cases hr
      simp [callUidOf, hm]
  · intro ρ hinj
    simp only [callUidOf]
    rw [show (f.renameUi ρ).sig = f.sig.renameUi ρ from rfl,
        hashable_rename f.sig ρ hinj x,
        show (f.sig.renameUi ρ).versioned_internal_name
          = f.sig.versioned_internal_name from rfl]

/-- Witness for C2's amended theorem at a concrete fresh storage. -/
theorem c2_witness :
    ∃ r, (Storage.fresh none).call_run fA xA = some r
      ∧ some r.call.uid = callUidOf fA xA := by
  have hwk : CallsWellKeyed (Storage.fresh none) :=
    ⟨fun p hp => by simp [Storage.fresh, KVStore.empty] at hp,
     fun p hp => by simp [Storage.fresh, RelAdapter.empty] at hp⟩
  have hr : (Storage.fresh none).call_run fA xA
      = some (((Storage.fresh none).call_run fA xA).getD default) := rfl
  exact ⟨_, hr, (c2_call_uid_formula _ _ _ _ hwk hr).1⟩

/-! ## Claim C4 -/

theorem aset_isSome {κ α : Type} [DecidableEq κ] (k : κ) (v : α) (l : List (κ × α))
    (u : κ) (h : (alookup u l).isSome) : (alookup u (aset k v l)).isSome := by
  by_cases hu : k = u
  · subst hu; simp [alookup_aset_self]
  · rw [alookup_aset_ne _ _ _ _ hu]; exact h

theorem foldl_aset_pair_isSome :
    ∀ (l : List (UID × ValueRef)) (base : List (UID × ValueRef)) (u : UID),
      (u ∈ l.map (·.1) ∨ (alookup u base).isSome) →
      (alookup u (l.foldl (fun acc p => aset p.1 p.2 acc) base)).isSome := by
  intro l
  induction l with
  | nil =>
    intro base u h
    rcases h with h | h
    · simp at h
    · exact h
  | cons p rest ih =>
    intro base u h
    rw [List.foldl_cons]
    refine ih _ u ?_
    rcases h with h | h
    · rw [List.map_cons] at h
      rcases List.mem_cons.mp h with h | h
      · right; subst h; simp [alookup_aset_self]
      · left; exact h
    · right; exact aset_isSome _ _ _ _ h

theorem foldl_aset_call_lookup :
    ∀ (cs : List Call) (base : List (UID × Call)) (u : UID) (c : Call),
      alookup u (cs.foldl (fun acc c => aset c.uid c acc) base) = some c →
      c ∈ cs ∨ alookup u base = some c := by
  intro cs
  induction cs with
  | nil => intro base u c h; right; exact h
  | cons c0 rest ih =>
    intro base u c h
    rw [List.foldl_cons] at h
    rcases ih _ u c h with h | h
    · left; exact List.mem_cons_of_mem _ h
    · by_cases hu : c0.uid = u
      · subst hu
        rw [alookup_aset_self] at h
        cases h
        left; exact List.mem_cons_self _ _
      · right; rwa [alookup_aset_ne _ _ _ _ hu] at h

theorem foldl_refvals_isSome :
    ∀ (vs : List ValueRef) (acc : List (UID × ValueRef)) (u : UID),
      (u ∈ vs.map (·.uid) ∨ (alookup u acc).isSome) →
      (alookup u (vs.foldl (fun a v => aset v.uid v a) acc)).isSome := by
  intro vs
  induction vs with
  | nil =>
    intro acc u h
    rcases h with h | h
    · simp at h
    · exact h
  | cons v rest ih =>
    intro acc u h
    rw [List.foldl_cons]
    refine ih _ u ?_
    rcases h with h | h
    · rw [List.map_cons] at h
      rcases List.mem_cons.mp h with h | h
      · right; subst h; simp [alookup_aset_self]
      · left; exact h
    · right; exact aset_isSome _ _ _ _ h

theorem gather_fold_isSome_mono (u : UID) :
    ∀ (calls : List Call) (acc : List (UID × ValueRef)),
      (alookup u acc).isSome →
      (alookup u (calls.foldl
        (fun acc c => (callRefVals c).foldl (fun a v => aset v.uid v a) acc) acc)).isSome := by
  intro calls
  induction calls with
  | nil => intro acc h; exact h
  | cons c0 rest ih =>
    intro acc h
    rw [List.foldl_cons]
    exact ih _ (foldl_refvals_isSome _ _ u (Or.inr h))

theorem gatherSome_covers :
    ∀ (calls : List Call) (acc : List (UID × ValueRef)) (c : Call) (u : UID),
      c ∈ calls → u ∈ callRefUids c →
      (alookup u (calls.foldl
        (fun acc c => (callRefVals c).foldl (fun a v => aset v.uid v a) acc) acc)).isSome := by
  intro calls
  induction calls with
  | nil => intro acc c u hc; simp at hc
  | cons c0 rest ih =>
    intro acc c u hc hu
    rw [List.foldl_cons]
    rcases List.mem_cons.mp hc with hc | hc
    · subst hc
      exact gather_fold_isSome_mono u rest _
        (foldl_refvals_isSome _ _ u (Or.inl hu))
    · exact ih _ c u hc hu

/-- The relational store is referentially closed: every persisted call's
referenced value rows are persisted (spec §3, referential closure). -/
def RelClosed (ra : RelAdapter) : Prop :=
  ∀ u c, alookup u ra.calls = some c → ∀ v ∈ callRefUids c, (alookup v ra.objs).isSome

/-- C4 counterexample: `commit` does not issue its writes inside a single
transaction — it always issues two (the `obj_sets` transaction and the
`upsert_calls` transaction), since it carries no transaction decorator of
its own. -/
theorem c4_claim_counterexample :
    ¬ (∀ (s : Storage) (mcalls : Option (List Call)),
        ∃ t : Txn, s.commitTrace mcalls = [t]) := by
  intro h
  obtain ⟨t, ht⟩ := h (Storage.fresh none) none
  simp [Storage.commitTrace] at ht

/-- C4 (amended): within every commit the writes happen in the fixed order
objects, then calls, then provenance, then event log, spread over exactly
two adapter transactions (objects first); provided the store was
referentially closed and every gathered call's references are covered by
the gathered objects or the store, every state observable at a transaction
boundary is referentially closed — no call row is ever visible without its
referenced object rows.  With an explicit call list the coverage condition
holds automatically. -/
theorem c4_commit_order_and_closure (cfg : Config) (s : Storage)
    (mcalls : Option (List Call))
    (hclosed : RelClosed s.rel)
    (hcover : ∀ c ∈ (commitGather s mcalls).2, ∀ u ∈ callRefUids c,
        u ∈ (commitGather s mcalls).1.map (·.1) ∨ (alookup u s.rel.objs).isSome) :
    (s.commitTrace mcalls).map (fun t => t.map (·.kind))
        = [[.wobjs], [.wcalls, .wprov, .wevent]]
    ∧ (∀ ra ∈ s.commitObservableRels mcalls, RelClosed ra)
    ∧ (Storage.commit cfg s mcalls).rel
        = (s.rel.obj_sets (commitGather s mcalls).1).upsert_calls (commitGather s mcalls).2
    ∧ (∀ calls, mcalls = some calls → ∀ c ∈ calls, ∀ u ∈ callRefUids c,
        (alookup u (commitGather s (some calls)).1).isSome) := by
  refine ⟨by simp [Storage.commitTrace], ?_, ?_, ?_⟩
  · intro ra hra
    simp only [Storage.commitObservableRels, List.mem_cons, List.mem_singleton,
      List.not_mem_nil, or_false] at hra
    rcases hra with hra | hra | hra
    · subst hra; exact hclosed
    · subst hra
      intro u c hc v hv
      have hold : alookup u s.rel.calls = some c := hc
      exact foldl_aset_pair_isSome _ _ v (Or.inr (hclosed u c hold v hv))
    · subst hra
      intro u c hc v hv
      have hc2 : alookup u ((commitGather s mcalls).2.foldl
          (fun acc c => aset c.uid c acc) s.rel.calls) = some c := hc
      rcases foldl_aset_call_lookup _ _ u c hc2 with hnew | hold
      · rcases hcover c hnew v hv with hk | hk
        · exact foldl_aset_pair_isSome _ _ v (Or.inl hk)
        · exact foldl_aset_pair_isSome _ _ v (Or.inr hk)
      · exact foldl_aset_pair_isSome _ _ v (Or.inr (hclosed u c hold v hv))
  · cases h : cfg.evict_on_commit <;>
      simp [Storage.commit, Storage.evict_caches, h]
  · intro calls hm c hc u hu
    subst hm
    exact gatherSome_covers calls [] c u hc hu

/-- Witness for C4's amended theorem at a fresh storage with an explicit
one-call commit. -/
theorem c4_witness :
    ((Storage.fresh none).commitTrace (some [⟨HVal.hnat 9, [], [], fA⟩])).map
        (fun t => t.map (·.kind)) = [[.wobjs], [.wcalls, .wprov, .wevent]] :=
  (c4_commit_order_and_closure cfgKeep (Storage.fresh none)
    (some [⟨HVal.hnat 9, [], [], fA⟩])
    (fun u c hc => by simp [Storage.fresh, RelAdapter.empty, alookup] at hc)
    (fun c hc u hu => by
      simp only [commitGather] at hc
      rcases List.mem_singleton.mp hc with rfl
      simp [callRefUids, callRefVals] at hu)).1

/-! ## Claim C3 -/

/-- The storage states reachable through the public storage operations. -/
inductive Reach : Storage → Prop where
  | fresh (root : Option Remote) : Reach (Storage.fresh root)
  | callRun {s : Storage} {f : FuncOp} {x : List (String × WrapInput)}
      {r : CallRunResult} : Reach s → Storage.call_run s f x = some r →
      Reach r.storage
  | commit {s : Storage} (cfg : Config) (mcalls : Option (List Call)) :
      Reach s → Reach (Storage.commit cfg s mcalls)
  | preload {s : Storage} (keys : List UID) : Reach s → Reach (s.preload_objs keys)
  | syncTo {s : Storage} (b : Bool) : Reach s → Reach (Storage.sync_to_remote b s).2
  | syncFrom {s : Storage} : Reach s → Reach s.sync_from_remote

/-- The call UID of the miss branch of `call_run`. -/
def missUid (f : FuncOp) (m : List (String × UID)) : UID :=
  hashCallUid m f.sig.versioned_internal_name

/-- The wrapped outputs of the miss branch of `call_run`. -/
def missOutputs (f : FuncOp) (x : List (String × WrapInput))
    (m : List (String × UID)) : List ValueRef :=
  wrap_outputs (f.func ((wrap_inputs x).map (fun p => (p.1, p.2.obj)))) (missUid f m)

/-- The call the miss branch of `call_run` constructs. -/
def missCall (f : FuncOp) (x : List (String × WrapInput))
    (m : List (String × UID)) : Call :=
  ⟨missUid f m, wrap_inputs x, missOutputs f x m, f⟩

/-- The miss-branch result of `call_run`, packaged for case analysis. -/
def mkMissResult (s : Storage) (f : FuncOp) (x : List (String × WrapInput))
    (m : List (String × UID)) : CallRunResult :=
  ⟨missOutputs f x m, missCall f x m,
   (missOutputs f x m ++ (wrap_inputs x).map (·.2)).foldl
     (fun st v => st.obj_set v.uid v) (s.call_set (missUid f m) (missCall f x m)),
   true⟩

theorem call_run_cases (s : Storage) (f : FuncOp) (x : List (String × WrapInput))
    (r : CallRunResult) (hr : Storage.call_run s f x = some r) :
    (∃ m call outs,
      hashableInputUids f.sig (wrap_inputs x) = some m
      ∧ s.call_exists (hashCallUid m f.sig.versioned_internal_name) = true
      ∧ s.call_get (hashCallUid m f.sig.versioned_internal_name) = some call
      ∧ omapM (fun v => (s.preload_objs (call.outputs.map (·.uid))).obj_get v.uid)
          call.outputs = some outs
      ∧ r = ⟨outs, call, s.preload_objs (call.outputs.map (·.uid)), false⟩)
    ∨ (∃ m,
      hashableInputUids f.sig (wrap_inputs x) = some m
      ∧ s.call_exists (hashCallUid m f.sig.versioned_internal_name) = false
      ∧ r = mkMissResult s f x m) := by
  simp only [Storage.call_run, Option.bind_eq_bind, Option.bind_eq_some] at hr
  obtain ⟨m, hm, hr⟩ := hr
  by_cases hex : s.call_exists (hashCallUid m f.sig.versioned_internal_name)
  · left
    simp only [hex, if_true, Option.bind_eq_bind, Option.bind_eq_some] at hr
    obtain ⟨call, hcall, hr⟩ := hr
    obtain ⟨outs, houts, hr⟩ := hr
    simp only [Option.pure_def, Option.some.injEq] at hr
    exact ⟨m, call, outs, hm, hex, hcall, houts, hr.symm⟩
  · right
    simp only [hex, Bool.false_eq_true, if_false, Option.pure_def,
      Option.some.injEq] at hr
    exact ⟨m, hm, by simpa using hex, by rw [← hr]; rfl⟩

/-- The storage of the first run of `fA` on `xA`. -/
def c3s1 : Storage := (((Storage.fresh none).call_run fA xA).getD default).storage

/-- After committing with cache eviction. -/
def c3s2 : Storage := Storage.commit cfgEvict c3s1 none

/-- After re-running the same call: a memoized replay that preloads the
persisted outputs back into the object cache — marking them dirty. -/
def c3s3 : Storage := ((c3s2.call_run fA xA).getD default).storage

/-- The UID of the first run's output. -/
def c3outUid : UID :=
  ((((Storage.fresh none).call_run fA xA).getD default).outputs.headD default).uid

theorem c3s1_reach : Reach c3s1 :=
  @Reach.callRun (Storage.fresh none) fA xA
    (((Storage.fresh none).call_run fA xA).getD default) (Reach.fresh none) rfl

theorem c3s3_reach : Reach c3s3 :=
  @Reach.callRun c3s2 fA xA ((c3s2.call_run fA xA).getD default)
    (Reach.commit cfgEvict none c3s1_reach) rfl

/-- C3 counterexample: it is not the case that, in every reachable state,
a cache entry is dirty exactly when it is cached but not yet persisted —
replaying a memoized call after an evicting commit preloads the persisted
outputs into the object cache and marks them dirty although they are
already in the relational store. -/
theorem c3_claim_counterexample :
    ¬ (∀ s : Storage, Reach s →
        (∀ u, u ∈ s.obj_cache.dirty_entries ↔
          (s.obj_cache.exists? u = true ∧ (s.rel.obj_get u).isSome = false))
        ∧ (∀ u, u ∈ s.call_cache.dirty_entries ↔
          (s.call_cache.exists? u = true ∧ s.rel.call_exists u = false))) := by
  intro h
  have hnotrel := ((h c3s3 c3s3_reach).1 c3outUid).mp (by decide)
  revert hnotrel
  decide

theorem kv_set_dirty_mem {α : Type} (st : KVStore α) (k : UID) (v : α) (u : UID)
    (h : u ∈ (st.set k v).dirty_entries) : u = k ∨ u ∈ st.dirty_entries := by
  by_cases hk : k ∈ st.dirty_entries
  · right; simpa [KVStore.set, hk] using h
  · simp only [KVStore.set, hk, if_false] at h
    exact List.mem_cons.mp h

theorem kv_set_dirty_mono {α : Type} (st : KVStore α) (k : UID) (v : α) (u : UID)
    (h : u ∈ st.dirty_entries) : u ∈ (st.set k v).dirty_entries := by
  by_cases hk : k ∈ st.dirty_entries <;> simp [KVStore.set, hk, h]

theorem kv_set_exists_self {α : Type} (st : KVStore α) (k : UID) (v : α) :
    (st.set k v).exists? k = true := by
  simp [KVStore.set, KVStore.exists?, alookup_aset_self]

theorem kv_set_exists_mono {α : Type} (st : KVStore α) (k : UID) (v : α) (u : UID)
    (h : st.exists? u = true) : (st.set k v).exists? u = true := by
  simpa [KVStore.set, KVStore.exists?] using aset_isSome k v st.data u (by simpa [KVStore.exists?] using h)

theorem kv_fold_dirty_mono {α β : Type} (key : β → UID) (val : β → α) :
    ∀ (rows : List β) (st : KVStore α) (u : UID), u ∈ st.dirty_entries →
      u ∈ (rows.foldl (fun c b => c.set (key b) (val b)) st).dirty_entries := by
  intro rows
  induction rows with
  | nil => intro st u h; exact h
  | cons b rest ih =>
    intro st u h
    rw [List.foldl_cons]
    exact ih _ u (kv_set_dirty_mono st _ _ u h)

theorem kv_fold_inv {α β : Type} (key : β → UID) (val : β → α) :
    ∀ (rows : List β) (st : KVStore α),
      (∀ u ∈ st.dirty_entries, st.exists? u = true) →
      ∀ u ∈ (rows.foldl (fun c b => c.set (key b) (val b)) st).dirty_entries,
        (rows.foldl (fun c b => c.set (key b) (val b)) st).exists? u = true := by
  intro rows
  induction rows with
  | nil => intro st h u hu; exact h u hu
  | cons b rest ih =>
    intro st h u hu
    rw [List.foldl_cons] at hu ⊢
    refine ih _ ?_ u hu
    intro w hw
    rcases kv_set_dirty_mem st _ _ w hw with hw2 | hw2
    · subst hw2; exact kv_set_exists_self st _ _
    · exact kv_set_exists_mono st _ _ w (h w hw2)

theorem foldl_obj_set_eq :
    ∀ (vs : List ValueRef) (st : Storage),
      vs.foldl (fun st v => st.obj_set v.uid v) st
        = { st with obj_cache := vs.foldl (fun c v => c.set v.uid v) st.obj_cache } := by
  intro vs
  induction vs with
  | nil => intro st; rfl
  | cons v rest ih =>
    intro st
    rw [List.foldl_cons, List.foldl_cons, ih]
    rfl

theorem sync_to_remote_caches (b : Bool) (s : Storage) :
    (Storage.sync_to_remote b s).2.obj_cache = s.obj_cache
    ∧ (Storage.sync_to_remote b s).2.call_cache = s.call_cache := by
  rcases hroot : s.root with _ | r
  · simp [Storage.sync_to_remote, hroot]
  · by_cases hb : b
    · by_cases hsend : r.sendOk
      · simp [Storage.sync_to_remote, hroot, hb, hsend, Storage.bundle_to_remote,
          Remote.save_event_log_entry]
      · simp [Storage.sync_to_remote, hroot, hb, eq_false_of_ne_true hsend,
          Storage.bundle_to_remote, Remote.save_event_log_entry]
    · simp [Storage.sync_to_remote, hroot, eq_false_of_ne_true hb,
        Storage.bundle_to_remote]

theorem sync_from_remote_caches (s : Storage) :
    s.sync_from_remote.obj_cache = s.obj_cache
    ∧ s.sync_from_remote.call_cache = s.call_cache := by
  rcases hroot : s.root with _ | r <;> simp [Storage.sync_from_remote, hroot]

theorem reach_dirty_in_cache : ∀ s : Storage, Reach s →
    (∀ u ∈ s.obj_cache.dirty_entries, s.obj_cache.exists? u = true)
    ∧ (∀ u ∈ s.call_cache.dirty_entries, s.call_cache.exists? u = true) := by
  intro s h
  induction h with
  | fresh root =>
    refine ⟨fun u hu => ?_, fun u hu => ?_⟩ <;>
      simp [Storage.fresh, KVStore.empty] at hu
  | callRun hreach hr ih =>
    rcases call_run_cases _ _ _ _ hr with
      ⟨m, call, outs, hm, hex, hcall, houts, hreq⟩ | ⟨m, hm, hex, hreq⟩
    · subst hreq
      refine ⟨fun u hu => ?_, fun u hu => ih.2 u hu⟩
      simp only [Storage.preload_objs] at hu ⊢
      exact kv_fold_inv (fun p : UID × ValueRef => p.1) (fun p : UID × ValueRef => p.2)
        _ _ ih.1 u hu
    · subst hreq
      constructor
      · intro u hu
        simp only [mkMissResult, foldl_obj_set_eq] at hu ⊢
        exact kv_fold_inv (fun v : ValueRef => v.uid) (fun v : ValueRef => v)
          _ _ ih.1 u hu
      · intro u hu
        simp only [mkMissResult, foldl_obj_set_eq] at hu ⊢
        rcases kv_set_dirty_mem _ _ _ u hu with hu2 | hu2
        · subst hu2; exact kv_set_exists_self _ _ _
        · exact kv_set_exists_mono _ _ _ u (ih.2 u hu2)
  | commit cfg mcalls hreach ih =>
    cases hev : cfg.evict_on_commit <;>
      refine ⟨fun u hu => ?_, fun u hu => ?_⟩ <;>
        simp [Storage.commit, Storage.evict_caches, hev] at hu
  | preload keys hreach ih =>
    refine ⟨fun u hu => ?_, fun u hu => ih.2 u hu⟩
    simp only [Storage.preload_objs] at hu ⊢
    exact kv_fold_inv (fun p : UID × ValueRef => p.1) (fun p : UID × ValueRef => p.2)
      _ _ ih.1 u hu
  | syncTo b hreach ih =>
    rw [(sync_to_remote_caches b _).1, (sync_to_remote_caches b _).2]
    exact ih
  | syncFrom hreach ih =>
    rw [(sync_from_remote_caches _).1, (sync_from_remote_caches _).2]
    exact ih

/-- C3 (amended): an entry is dirty iff it entered the in-memory cache
since the last commit; such entries may already be persisted (preloading
marks them dirty again).  What does hold: commit — and only commit — emits
a clean state (empty dirty sets, `is_clean`); `call_run` and
`preload_objs` only grow the dirty sets and the sync operations never
touch the caches; and in every reachable state a dirty entry does exist in
its cache. -/
theorem c3_dirty_tracking (s : Storage) :
    (∀ (cfg : Config) (mcalls : Option (List Call)),
        (Storage.commit cfg s mcalls).obj_cache.dirty_entries = []
        ∧ (Storage.commit cfg s mcalls).call_cache.dirty_entries = []
        ∧ (Storage.commit cfg s mcalls).is_clean = true)
    ∧ (∀ f x r, Storage.call_run s f x = some r →
        (∀ u ∈ s.obj_cache.dirty_entries, u ∈ r.storage.obj_cache.dirty_entries)
        ∧ (∀ u ∈ s.call_cache.dirty_entries, u ∈ r.storage.call_cache.dirty_entries))
    ∧ (∀ keys : List UID,
        (∀ u ∈ s.obj_cache.dirty_entries, u ∈ (s.preload_objs keys).obj_cache.dirty_entries)
        ∧ (s.preload_objs keys).call_cache = s.call_cache)
    ∧ (∀ b, (Storage.sync_to_remote b s).2.obj_cache = s.obj_cache
        ∧ (Storage.sync_to_remote b s).2.call_cache = s.call_cache)
    ∧ (s.sync_from_remote.obj_cache = s.obj_cache
        ∧ s.sync_from_remote.call_cache = s.call_cache)
    ∧ (Reach s →
        (∀ u ∈ s.obj_cache.dirty_entries, s.obj_cache.exists? u = true)
        ∧ (∀ u ∈ s.call_cache.dirty_entries, s.call_cache.exists? u = true)) := by
  refine ⟨?_, ?_, ?_, ?_, ?_, fun h => reach_dirty_in_cache s h⟩
  · intro cfg mcalls
    refine ⟨?_, ?_, ?_⟩ <;> cases h : cfg.evict_on_commit <;>
      simp [Storage.commit, Storage.evict_caches, Storage.is_clean, KVStore.is_clean, h]
  · intro f x r hr
    rcases call_run_cases s f x r hr with
      ⟨m, call, outs, hm, hex, hcall, houts, hreq⟩ | ⟨m, hm, hex, hreq⟩
    · subst hreq
      refine ⟨fun u hu => ?_, fun u hu => hu⟩
      simp only [Storage.preload_objs]
      exact kv_fold_dirty_mono (fun p : UID × ValueRef => p.1)
        (fun p : UID × ValueRef => p.2) _ s.obj_cache u hu
    · subst hreq
      refine ⟨fun u hu => ?_, fun u hu => ?_⟩
      · simp only [mkMissResult, foldl_obj_set_eq]
        exact kv_fold_dirty_mono (fun v : ValueRef => v.uid) (fun v : ValueRef => v)
          _ _ u hu
      · simp only [mkMissResult, foldl_obj_set_eq]
        exact kv_set_dirty_mono s.call_cache _ _ u hu
  · intro keys
    refine ⟨fun u hu => ?_, rfl⟩
    simp only [Storage.preload_objs]
    exact kv_fold_dirty_mono (fun p : UID × ValueRef => p.1)
      (fun p : UID × ValueRef => p.2) _ s.obj_cache u hu
  · exact fun b => sync_to_remote_caches b s
  · exact sync_from_remote_caches s

/-- Witness for C3's amended theorem at concrete states: the commit after
the first run is clean, and in the reachable state after the memoized
replay every dirty entry does exist in its cache. -/
theorem c3_witness :
    (Storage.commit cfgEvict c3s1 none).is_clean = true
    ∧ (∀ u ∈ c3s3.obj_cache.dirty_entries, c3s3.obj_cache.exists? u = true) :=
  ⟨((c3_dirty_tracking c3s1).1 cfgEvict none).2.2,
   ((c3_dirty_tracking c3s3).2.2.2.2.2 c3s3_reach).1⟩

/-! ## Claim C1 -/

theorem omapM_congr {α β : Type} (f g : α → Option β) (l : List α)
    (h : ∀ a ∈ l, f a = g a) : omapM f l = omapM g l := by
  induction l with
  | nil => rfl
  | cons a rest ih =>
    simp only [omapM, h a (List.mem_cons_self a rest),
      ih (fun b hb => h b (List.mem_cons_of_mem _ hb))]

theorem omapM_uid_outputs (g : ValueRef → Option ValueRef) :
    ∀ l : List ValueRef,
      (∀ v ∈ l, ∃ w, g v = some w ∧ w.uid = v.uid) →
      ∃ ws, omapM g l = some ws ∧ ws.map (·.uid) = l.map (·.uid) := by
  intro l
  induction l with
  | nil => intro _; exact ⟨[], rfl, rfl⟩
  | cons v rest ih =>
    intro h
    obtain ⟨w, hw, hwu⟩ := h v (List.mem_cons_self v rest)
    obtain ⟨ws, hws, hwsu⟩ := ih (fun b hb => h b (List.mem_cons_of_mem _ hb))
    exact ⟨w :: ws, by simp [omapM, hw, hws], by simp [hwu, hwsu]⟩

theorem alookup_isSome_iff {κ α : Type} [DecidableEq κ] (k : κ) (l : List (κ × α)) :
    (alookup k l).isSome = true ↔ k ∈ l.map (·.1) := by
  induction l with
  | nil => simp [alookup]
  | cons p rest ih =>
    rw [alookup]
    by_cases hp : p.1 = k
    · subst hp; simp
    · rw [if_neg hp, ih, List.map_cons]
      constructor
      · exact fun h => List.mem_cons_of_mem _ h
      · intro h
        rcases List.mem_cons.mp h with h | h
        · exact absurd h.symm hp
        · exact h

theorem obj_gets_mem (ra : RelAdapter) (keys : List UID) (p : UID × ValueRef)
    (h : p ∈ ra.obj_gets keys) : alookup p.1 ra.objs = some p.2 ∧ p.1 ∈ keys := by
  simp only [RelAdapter.obj_gets, List.mem_filterMap] at h
  obtain ⟨k, hk, hmap⟩ := h
  cases hl : alookup k ra.objs with
  | none => rw [hl] at hmap; cases hmap
  | some w =>
    rw [hl] at hmap
    simp only [Option.map_some', Option.some.injEq] at hmap
    cases hmap
    exact ⟨hl, hk⟩

/-- Writing an agreeing entry into the object cache changes no `obj_get`
lookup. -/
theorem obj_get_set_cache (s : Storage) (k : UID) (v : ValueRef)
    (hk : s.obj_get k = some v) (u : UID) :
    ({ s with obj_cache := s.obj_cache.set k v } : Storage).obj_get u = s.obj_get u := by
  by_cases hu : k = u
  · subst hu
    rw [show ({ s with obj_cache := s.obj_cache.set k v } : Storage).obj_get k
          = (if (alookup k (aset k v s.obj_cache.data)).isSome = true
              then alookup k (aset k v s.obj_cache.data) else s.rel.obj_get k) from rfl]
    rw [alookup_aset_self]
    simpa using hk.symm
  · rw [show ({ s with obj_cache := s.obj_cache.set k v } : Storage).obj_get u
          = (if (alookup u (aset k v s.obj_cache.data)).isSome = true
              then alookup u (aset k v s.obj_cache.data) else s.rel.obj_get u) from rfl]
    rw [alookup_aset_ne _ _ _ _ hu]
    rfl

/-- Folding agreeing entries into the object cache changes no `obj_get`
lookup. -/
theorem obj_get_fold_cache :
    ∀ (rows : List (UID × ValueRef)) (s : Storage),
      (∀ p ∈ rows, s.obj_get p.1 = some p.2) →
      ∀ u, ({ s with obj_cache := rows.foldl (fun c p => c.set p.1 p.2) s.obj_cache }
          : Storage).obj_get u = s.obj_get u := by
  intro rows
  induction rows with
  | nil => intro s _ u; rfl
  | cons p rest ih =>
    intro s hrows u
    rw [List.foldl_cons]
    have hp := hrows p (List.mem_cons_self p rest)
    have hstep := obj_get_set_cache s p.1 p.2 hp
    have hrest := ih { s with obj_cache := s.obj_cache.set p.1 p.2 }
      (fun q hq => (hstep q.1).trans (hrows q (List.mem_cons_of_mem _ hq))) u
    exact hrest.trans (hstep u)

/-- Preloading objects changes no observable lookup: `obj_get` after
`preload_objs` agrees with `obj_get` before. -/
theorem obj_get_preload (s : Storage) (keys : List UID) (u : UID) :
    (s.preload_objs keys).obj_get u = s.obj_get u := by
  refine obj_get_fold_cache _ s (fun p hp => ?_) u
  obtain ⟨hrel, hkeys⟩ := obj_gets_mem _ _ p hp
  have hnotc : (alookup p.1 s.obj_cache.data).isSome = false := by
    simpa [KVStore.exists?] using (List.mem_filter.mp hkeys).2
  rw [show s.obj_get p.1
        = (if (alookup p.1 s.obj_cache.data).isSome = true
            then alookup p.1 s.obj_cache.data else s.rel.obj_get p.1) from rfl,
      hnotc]
  simpa [RelAdapter.obj_get] using hrel

/-- Preloading objects does not change `call_exists`. -/
theorem call_exists_preload (s : Storage) (keys : List UID) (u : UID) :
    (s.preload_objs keys).call_exists u = s.call_exists u := rfl

/-- Preloading objects does not change `call_get`. -/
theorem call_get_preload (s : Storage) (keys : List UID) (u : UID) :
    (s.preload_objs keys).call_get u = s.call_get u := by
  by_cases hex : s.call_cache.exists? u
  · simp only [Storage.call_get]
    rw [show (s.preload_objs keys).call_cache = s.call_cache from rfl, if_pos hex,
      if_pos hex]
  · simp only [Storage.call_get]
    rw [show (s.preload_objs keys).call_cache = s.call_cache from rfl, if_neg hex,
      if_neg hex,
      show (s.preload_objs keys).rel = s.rel from rfl]
    cases hl : s.rel.call_get_lazy u with
    | none => rfl
    | some lazy =>
      simp only [Option.some_bind, Option.bind_eq_bind]
      have hi : omapM (fun p => ((s.preload_objs keys).obj_get p.2.uid).map
            (fun v => (p.1, v))) lazy.inputs
          = omapM (fun p => (s.obj_get p.2.uid).map (fun v => (p.1, v))) lazy.inputs :=
        omapM_congr _ _ _ (fun a _ => by rw [obj_get_preload])
      have ho : omapM (fun v => (s.preload_objs keys).obj_get v.uid) lazy.outputs
          = omapM (fun v => s.obj_get v.uid) lazy.outputs :=
        omapM_congr _ _ _ (fun a _ => by rw [obj_get_preload])
      simp only [hi, ho]

/-- Setting some object leaves a well-keyed lookup well-keyed. -/
theorem obj_get_objset_pres (st : Storage) (w2 : ValueRef) (u : UID)
    (h : ∃ w, st.obj_get u = some w ∧ w.uid = u) :
    ∃ w, (st.obj_set w2.uid w2).obj_get u = some w ∧ w.uid = u := by
  by_cases hu : w2.uid = u
  · refine ⟨w2, ?_, hu⟩
    rw [show (st.obj_set w2.uid w2).obj_get u
          = (if (alookup u (aset w2.uid w2 st.obj_cache.data)).isSome = true
              then alookup u (aset w2.uid w2 st.obj_cache.data)
              else st.rel.obj_get u) from rfl]
    subst hu
    rw [alookup_aset_self]
    rfl
  · obtain ⟨w, hw, hwu⟩ := h
    refine ⟨w, ?_, hwu⟩
    rw [show (st.obj_set w2.uid w2).obj_get u
          = (if (alookup u (aset w2.uid w2 st.obj_cache.data)).isSome = true
              then alookup u (aset w2.uid w2 st.obj_cache.data)
              else st.rel.obj_get u) from rfl,
        alookup_aset_ne _ _ _ _ hu]
    exact hw

/-- After the miss-branch cache writes, every written value's UID is
retrievable with a reference carrying exactly that UID. -/
theorem obj_get_after_objset_fold :
    ∀ (vs : List ValueRef) (st : Storage) (u : UID),
      ((∃ w, st.obj_get u = some w ∧ w.uid = u) ∨ ∃ v ∈ vs, v.uid = u) →
      ∃ w, (vs.foldl (fun st v => st.obj_set v.uid v) st).obj_get u = some w
        ∧ w.uid = u := by
  intro vs
  induction vs with
  | nil =>
    intro st u h
    rcases h with h | ⟨v, hv, _⟩
    · exact h
    · simp at hv
  | cons v rest ih =>
    intro st u h
    rw [List.foldl_cons]
    refine ih _ u ?_
    rcases h with h | ⟨v0, hv0, huid⟩
    · exact Or.inl (obj_get_objset_pres st v u h)
    · rcases List.mem_cons.mp hv0 with hv0 | hv0
      · subst hv0
        subst huid
        refine Or.inl ⟨v0, ?_, rfl⟩
        rw [show (st.obj_set v0.uid v0).obj_get v0.uid
              = (if (alookup v0.uid (aset v0.uid v0 st.obj_cache.data)).isSome = true
                  then alookup v0.uid (aset v0.uid v0 st.obj_cache.data)
                  else st.rel.obj_get v0.uid) from rfl,
            alookup_aset_self]
        rfl
      · exact Or.inr ⟨v0, hv0, huid⟩

/-- C1: `call_run` on an existing call UID replays the stored call without
executing the user function, and on a fresh UID executes it; two
consecutive runs with the same function and inputs agree on the call UID
and the output UIDs, with the user function executed at most in the first
run. -/
theorem c1_call_run_memoized (s : Storage) (f : FuncOp) (x : List (String × WrapInput))
    (r1 : CallRunResult) (h1 : Storage.call_run s f x = some r1) :
    (∀ u, callUidOf f x = some u →
        (s.call_exists u = true → r1.executed = false ∧ s.call_get u = some r1.call)
        ∧ (s.call_exists u = false → r1.executed = true))
    ∧ ∃ r2, Storage.call_run r1.storage f x = some r2
        ∧ r2.call.uid = r1.call.uid
        ∧ r2.outputs.map (·.uid) = r1.outputs.map (·.uid)
        ∧ r2.executed = false := by
  rcases call_run_cases s f x r1 h1 with
    ⟨m, call, outs, hm, hex, hcall, houts, hreq⟩ | ⟨m, hm, hex, hreq⟩
  · constructor
    · intro u hu
      rw [callUidOf, hm, Option.map_some', Option.some.injEq] at hu
      subst hu
      refine ⟨fun _ => ⟨by rw [hreq], by rw [hreq, hcall]⟩, fun hfalse => ?_⟩
      rw [hex] at hfalse
      cases hfalse
    · subst hreq
      refine ⟨⟨outs, call,
        (s.preload_objs (call.outputs.map (·.uid))).preload_objs
          (call.outputs.map (·.uid)), false⟩, ?_, rfl, rfl, rfl⟩
      simp only [Storage.call_run, Option.bind_eq_bind, hm, Option.some_bind]
      rw [call_exists_preload, hex]
      simp only [if_true]
      rw [call_get_preload, hcall]
      simp only [Option.some_bind]
      rw [omapM_congr
        (fun v => ((s.preload_objs (call.outputs.map (·.uid))).preload_objs
          (call.outputs.map (·.uid))).obj_get v.uid)
        (fun v => (s.preload_objs (call.outputs.map (·.uid))).obj_get v.uid)
        call.outputs (fun a _ => obj_get_preload _ _ _), houts]
      rfl
  · constructor
    · intro u hu
      rw [callUidOf, hm, Option.map_some', Option.some.injEq] at hu
      subst hu
      refine ⟨fun htrue => ?_, fun _ => by rw [hreq]; rfl⟩
      rw [hex] at htrue
      cases htrue
    · subst hreq
      have hcache : (mkMissResult s f x m).storage.call_cache
          = s.call_cache.set (missUid f m) (missCall f x m) := by
        simp only [mkMissResult, foldl_obj_set_eq]
        rfl
      have hc1 : (mkMissResult s f x m).storage.call_cache.exists? (missUid f m) = true := by
        rw [hcache]
        exact kv_set_exists_self _ _ _
      have hc2 : (mkMissResult s f x m).storage.call_cache.get (missUid f m)
          = some (missCall f x m) := by
        rw [hcache]
        simp [KVStore.get, KVStore.set, alookup_aset_self]
      have hex2 : (mkMissResult s f x m).storage.call_exists (missUid f m) = true := by
        simp only [Storage.call_exists, hc1, Bool.true_or]
      have hget2 : (mkMissResult s f x m).storage.call_get (missUid f m)
          = some (missCall f x m) := by
        simp only [Storage.call_get, hc1, if_true]
        exact hc2
      have hobj : ∀ v ∈ (missCall f x m).outputs,
          ∃ w, ((mkMissResult s f x m).storage.preload_objs
              ((missCall f x m).outputs.map (·.uid))).obj_get v.uid = some w
            ∧ w.uid = v.uid := by
        intro v hv
        rw [obj_get_preload]
        exact obj_get_after_objset_fold
          (missOutputs f x m ++ (wrap_inputs x).map (·.2))
          (s.call_set (missUid f m) (missCall f x m)) v.uid
          (Or.inr ⟨v, List.mem_append.mpr (Or.inl hv), rfl⟩)
      obtain ⟨ws, hws, hwsu⟩ := omapM_uid_outputs _ (missCall f x m).outputs hobj
      refine ⟨⟨ws, missCall f x m,
        (mkMissResult s f x m).storage.preload_objs
          ((missCall f x m).outputs.map (·.uid)), false⟩, ?_, rfl, ?_, rfl⟩
      · simp only [Storage.call_run, Option.bind_eq_bind, hm, Option.some_bind]
        rw [show hashCallUid m f.sig.versioned_internal_name = missUid f m from rfl,
          hex2]
        simp only [if_true]
        rw [hget2]
        simp only [Option.some_bind]
        rw [hws]
        rfl
      · exact hwsu

/-- Witness for C1 at a fresh storage: the second run of the same call is
memoized. -/
theorem c1_witness :
    ∃ r2, Storage.call_run
        (((Storage.fresh none).call_run fA xA).getD default).storage fA xA = some r2
      ∧ r2.executed = false := by
  obtain ⟨r2, he, _, _, hx⟩ := (c1_call_run_memoized (Storage.fresh none) fA xA
    (((Storage.fresh none).call_run fA xA).getD default) rfl).2
  exact ⟨r2, he, hx⟩

/-! ## Claim C10 -/

theorem aset_mem {κ α : Type} [DecidableEq κ] (k : κ) (v : α) :
    ∀ (l : List (κ × α)) (p : κ × α), p ∈ aset k v l → p = (k, v) ∨ p ∈ l := by
  intro l
  induction l with
  | nil => intro p hp; simp [aset] at hp; exact Or.inl hp
  | cons q rest ih =>
    intro p hp
    rw [aset] at hp
    by_cases hq : q.1 = k
    · rw [if_pos hq] at hp
      rcases List.mem_cons.mp hp with hp | hp
      · exact Or.inl hp
      · exact Or.inr (List.mem_cons_of_mem _ hp)
    · rw [if_neg hq] at hp
      rcases List.mem_cons.mp hp with hp | hp
      · exact Or.inr (hp ▸ List.mem_cons_self _ _)
      · rcases ih p hp with hp | hp
        · exact Or.inl hp
        · exact Or.inr (List.mem_cons_of_mem _ hp)

theorem aset_keys {κ α : Type} [DecidableEq κ] (k : κ) (v : α) :
    ∀ l : List (κ × α),
      (aset k v l).map (·.1)
        = if (alookup k l).isSome = true then l.map (·.1) else l.map (·.1) ++ [k] := by
  intro l
  induction l with
  | nil => simp [aset, alookup]
  | cons q rest ih =>
    rw [aset, alookup]
    by_cases hq : q.1 = k
    · rw [if_pos hq, if_pos hq]
      simp [hq]
    · rw [if_neg hq, if_neg hq, List.map_cons, ih]
      by_cases hs : (alookup k rest).isSome = true
      · rw [if_pos hs, if_pos hs, List.map_cons]
      · rw [if_neg hs, if_neg hs, List.map_cons, List.cons_append]

theorem dict_fold_nodup :
    ∀ (cs : List Call) (m : List (UID × Call)),
      ((m.map (·.1)).Nodup ∧ ∀ p ∈ m, p.2.uid = p.1) →
      (((cs.foldl (fun m c => aset c.uid c m) m).map (·.1)).Nodup
        ∧ ∀ p ∈ cs.foldl (fun m c => aset c.uid c m) m, p.2.uid = p.1) := by
  intro cs
  induction cs with
  | nil => intro m h; exact h
  | cons c rest ih =>
    intro m h
    rw [List.foldl_cons]
    refine ih _ ⟨?_, ?_⟩
    · rw [aset_keys]
      by_cases hs : (alookup c.uid m).isSome = true
      · rw [if_pos hs]; exact h.1
      · rw [if_neg hs]
        have hk : c.uid ∉ m.map (·.1) := by
          intro hmem
          exact hs ((alookup_isSome_iff _ _).mpr hmem)
        simp [List.nodup_append, h.1, hk, List.disjoint_singleton]
    · intro p hp
      rcases aset_mem _ _ _ p hp with hp | hp
      · rw [hp]
      · exact h.2 p hp

theorem firstDedup_nodup (cs : List Call) :
    ((firstDedupByUid cs).map (·.uid)).Nodup := by
  obtain ⟨hn, hk⟩ := dict_fold_nodup cs [] ⟨by simp, by simp⟩
  rw [firstDedupByUid, List.map_map]
  rw [show (cs.foldl (fun m c => aset c.uid c m) []).map ((fun c : Call => c.uid) ∘ (·.2))
        = (cs.foldl (fun m c => aset c.uid c m) []).map (·.1) from
      List.map_congr_left (fun p hp => hk p hp)]
  exact hn

/-- Every object row of the cache and the relational store sits under its
own UID as key. -/
def ObjsWellKeyed (s : Storage) : Prop :=
  (∀ p ∈ s.obj_cache.data, p.2.uid = p.1) ∧ (∀ p ∈ s.rel.objs, p.2.uid = p.1)

theorem obj_get_wk (s : Storage) (hwk : ObjsWellKeyed s) (u : UID) (w : ValueRef)
    (h : s.obj_get u = some w) : w.uid = u := by
  rw [show s.obj_get u
        = (if (alookup u s.obj_cache.data).isSome = true
            then alookup u s.obj_cache.data else s.rel.obj_get u) from rfl] at h
  by_cases hex : (alookup u s.obj_cache.data).isSome = true
  · rw [if_pos hex] at h
    exact hwk.1 (u, w) (alookup_mem _ _ _ h)
  · rw [if_neg hex] at h
    exact hwk.2 (u, w) (alookup_mem _ _ _ h)

theorem kv_fold_wk {β : Type} (key : β → UID) (val : β → ValueRef) :
    ∀ (rows : List β) (st : KVStore ValueRef),
      (∀ b ∈ rows, (val b).uid = key b) →
      (∀ p ∈ st.data, p.2.uid = p.1) →
      ∀ p ∈ (rows.foldl (fun c b => c.set (key b) (val b)) st).data, p.2.uid = p.1 := by
  intro rows
  induction rows with
  | nil => intro st _ hst p hp; exact hst p hp
  | cons b rest ih =>
    intro st hrows hst p hp
    rw [List.foldl_cons] at hp
    refine ih _ (fun b2 hb2 => hrows b2 (List.mem_cons_of_mem _ hb2)) ?_ p hp
    intro q hq
    rcases aset_mem _ _ _ q hq with hq | hq
    · rw [hq]
      exact hrows b (List.mem_cons_self b rest)
    · exact hst q hq

theorem preload_wk (s : Storage) (keys : List UID) (hwk : ObjsWellKeyed s) :
    ObjsWellKeyed (s.preload_objs keys) := by
  refine ⟨?_, hwk.2⟩
  refine kv_fold_wk (fun p : UID × ValueRef => p.1) (fun p : UID × ValueRef => p.2)
    _ s.obj_cache (fun p hp => ?_) hwk.1
  obtain ⟨hrel, _⟩ := obj_gets_mem _ _ p hp
  exact hwk.2 p (alookup_mem _ _ _ hrel)

theorem call_run_wk (s : Storage) (f : FuncOp) (x : List (String × WrapInput))
    (r : CallRunResult) (hwk : ObjsWellKeyed s)
    (hr : Storage.call_run s f x = some r) : ObjsWellKeyed r.storage := by
  rcases call_run_cases s f x r hr with
    ⟨m, call, outs, hm, hex, hcall, houts, hreq⟩ | ⟨m, hm, hex, hreq⟩
  · subst hreq
    exact preload_wk s _ hwk
  · subst hreq
    constructor
    · simp only [mkMissResult, foldl_obj_set_eq]
      exact kv_fold_wk (fun v : ValueRef => v.uid) (fun v : ValueRef => v)
        _ _ (fun b _ => rfl) hwk.1
    · simp only [mkMissResult, foldl_obj_set_eq]
      exact hwk.2

theorem omapM_uids (g : ValueRef → Option ValueRef) :
    ∀ (l outs : List ValueRef),
      omapM g l = some outs →
      (∀ v ∈ l, ∀ w, g v = some w → w.uid = v.uid) →
      outs.map (·.uid) = l.map (·.uid) := by
  intro l
  induction l with
  | nil =>
    intro outs h _
    simp only [omapM, Option.some.injEq] at h
    rw [← h]
  | cons v rest ih =>
    intro outs h hg
    simp only [omapM, Option.bind_eq_bind, Option.pure_def, Option.bind_eq_some,
      Option.some.injEq] at h
    obtain ⟨w, hw, tail, htail, hcons⟩ := h
    subst hcons
    rw [List.map_cons, List.map_cons,
      hg v (List.mem_cons_self v rest) w hw,
      ih tail htail (fun b hb => hg b (List.mem_cons_of_mem _ hb))]

/-- Under a well-keyed storage, the outputs `call_run` returns carry
exactly the UIDs of the returned call's outputs. -/
theorem call_run_outputs_uids (s : Storage) (f : FuncOp)
    (x : List (String × WrapInput)) (r : CallRunResult) (hwk : ObjsWellKeyed s)
    (hr : Storage.call_run s f x = some r) :
    r.outputs.map (·.uid) = r.call.outputs.map (·.uid) := by
  rcases call_run_cases s f x r hr with
    ⟨m, call, outs, hm, hex, hcall, houts, hreq⟩ | ⟨m, hm, hex, hreq⟩
  · subst hreq
    exact omapM_uids _ call.outputs outs houts
      (fun v _ w hw => obj_get_wk _ (preload_wk s _ hwk) _ w hw)
  · subst hreq
    rfl

/-- The in-place output overwrite: with enough computed outputs, every
slot becomes in-memory and carries the computed UIDs. -/
theorem overwrite_spec :
    ∀ (outs vrefs : List ValueRef), outs.length ≤ vrefs.length →
      (∀ o ∈ overwriteOutputs outs vrefs, o.in_memory = true)
      ∧ (overwriteOutputs outs vrefs).map (·.uid)
          = (vrefs.map (·.uid)).take outs.length := by
  intro outs
  induction outs with
  | nil =>
    intro vrefs _
    constructor
    · intro o ho; simp [overwriteOutputs] at ho
    · simp [overwriteOutputs]
  | cons o os ih =>
    intro vrefs hlen
    cases vrefs with
    | nil => simp at hlen
    | cons v vs =>
      have hlen2 : os.length ≤ vs.length := by simpa using hlen
      obtain ⟨ih1, ih2⟩ := ih vs hlen2
      constructor
      · intro o2 ho2
        simp only [overwriteOutputs, List.zip_cons_cons, List.map_cons,
          List.length_cons, List.drop_succ_cons, List.cons_append,
          List.mem_cons] at ho2
        rcases ho2 with ho2 | ho2
        · rw [ho2]
        · exact ih1 o2 (by simpa [overwriteOutputs] using ho2)
      · simp only [overwriteOutputs, List.zip_cons_cons, List.map_cons,
          List.length_cons, List.drop_succ_cons, List.cons_append, List.take_succ_cons]
        have := ih2
        simp only [overwriteOutputs] at this
        rw [this]

theorem executeStructs_spec :
    ∀ (w : List CallStruct) (s : Storage), ObjsWellKeyed s →
      ∀ rec ∈ (executeStructs s w).2.1,
        rec.updated
            = { rec.src with outputs := overwriteOutputs rec.src.outputs rec.vrefOutputs }
        ∧ rec.vrefOutputs.map (·.uid) = rec.call.outputs.map (·.uid) := by
  intro w
  induction w with
  | nil => intro s hwk rec hrec; simp [executeStructs] at hrec
  | cons cs rest ih =>
    intro s hwk rec hrec
    by_cases hdel : cs.inputs.any (fun p => p.2.is_delayed)
    · simp [executeStructs, hdel] at hrec
    · cases hr : Storage.call_run s cs.func_op
          (cs.inputs.map (fun p => (p.1, WrapInput.ref p.2))) with
      | none =>
        simp [executeStructs, hdel, hr] at hrec
      | some r =>
        cases he : executeStructs r.storage rest with
        | mk err rest2 =>
          cases rest2 with
          | mk recs s2 =>
            simp only [executeStructs, hdel, Bool.false_eq_true, if_false, hr, he,
              List.mem_cons] at hrec
            rcases hrec with hrec | hrec
            · subst hrec
              exact ⟨rfl, call_run_outputs_uids s _ _ r hwk hr⟩
            · have := ih r.storage (call_run_wk s _ _ r hwk hr) rec
              rw [he] at this
              exact this hrec

/-- C10: the executor's returned call list holds at most one call per UID,
and every executed call struct's output slots are overwritten in place
with the computed references; when the user function supplies at least as
many outputs as the struct has slots, every slot ends up in memory and
carries the computed UIDs. -/
theorem c10_executor_dedup_and_overwrite (s : Storage) (w : List CallStruct)
    (hwk : ObjsWellKeyed s) :
    ((SimpleWorkflowExecutor.execute s w).2.1.map (·.uid)).Nodup
    ∧ (∀ rec ∈ (SimpleWorkflowExecutor.execute s w).2.2.1,
        rec.updated
            = { rec.src with outputs := overwriteOutputs rec.src.outputs rec.vrefOutputs }
        ∧ rec.vrefOutputs.map (·.uid) = rec.call.outputs.map (·.uid)
        ∧ (rec.src.outputs.length ≤ rec.vrefOutputs.length →
            (∀ out ∈ rec.updated.outputs, out.in_memory = true)
            ∧ rec.updated.outputs.map (·.uid)
                = (rec.vrefOutputs.map (·.uid)).take rec.src.outputs.length)) := by
  cases he : executeStructs s w with
  | mk err rest2 =>
    cases rest2 with
    | mk recs s2 =>
      constructor
      · show ((firstDedupByUid ((executeStructs s w).2.1.map (·.call))).map (·.uid)).Nodup
        exact firstDedup_nodup _
      · intro rec hrec
        have hrec2 : rec ∈ (executeStructs s w).2.1 := by
          rw [he]
          simpa [SimpleWorkflowExecutor.execute, he] using hrec
        obtain ⟨h1, h2⟩ := executeStructs_spec w s hwk rec hrec2
        refine ⟨h1, h2, fun hlen => ?_⟩
        have hov := overwrite_spec rec.src.outputs rec.vrefOutputs hlen
        rw [h1]
        exact hov

/-- A one-struct workflow, listed twice (the same call repeated). -/
def wDup : List CallStruct :=
  [⟨fA, [("a", wrap (.raw 5))], [ValueRef.make_delayed]⟩,
   ⟨fA, [("a", wrap (.raw 5))], [ValueRef.make_delayed]⟩]

/-- Witness for C10 at a fresh storage and a duplicated call struct: the
deduplicated call list has pairwise distinct UIDs. -/
theorem c10_witness :
    ((SimpleWorkflowExecutor.execute (Storage.fresh none) wDup).2.1.map (·.uid)).Nodup :=
  (c10_executor_dedup_and_overwrite (Storage.fresh none) wDup
    ⟨fun p hp => by simp [Storage.fresh, KVStore.empty] at hp,
     fun p hp => by simp [Storage.fresh, RelAdapter.empty] at hp⟩).1

end Mandala
